import Mathlib

/-!
Verification of the `adev-lru` LRU cache (`src/index.ts`, the published
v1.3.0 source).

The TypeScript class `LRUCache<T>` keeps a capacity, a `Map<string, LinkedNode<T>>`
(`hash`), `head`/`tail` references into a doubly linked list of nodes, and three
counters.  We embed it shallowly:

* a `Node` is a record `{key, value, ttl, prev, next}` — `ttl` holds the
  absolute expiry timestamp `now + ttl` exactly as the source stores it;
* JS object references become indices into an append-only arena
  `nodes : List (Node T)`; node allocation (`{ key, value, ttl }` literals in
  `prepend`) appends to the arena, field mutation updates the arena in place;
* the JS `Map` becomes an association list `hash : List (String × Nat)` mapping
  a key to the arena index of its node; `Map.get/set/delete/size/clear` become
  `hashGet/hashSet/hashDelete/List.length/[]`; `Map.set` overwrites in place
  when the key is present and appends otherwise, as the JS `Map` does;
* `Date.now()` is threaded as an explicit `now : Nat` argument.

Every operation (`put`, `get`, `getOption`, `clear`, `prepend`, `pop`, `evict`)
is translated statement by statement from the source, re-reading node fields
from the evolving arena at the same points the source re-reads them.
-/

namespace LRU

/-- `LinkedNode<T>` from `src/interfaces`: key, value, absolute expiry
timestamp (the source stores `now + ttl` in the field named `ttl`), and the
`prev`/`next` references of the recency list, here arena indices. -/
structure Node (T : Type) where
  key : String
  value : T
  ttl : Nat
  prev : Option Nat
  next : Option Nat
deriving Repr, DecidableEq

/-- The state of `LRUCache<T>`: capacity, arena of all allocated nodes, the
key → node-index map, the `head`/`tail` references and the three counters. -/
structure Cache (T : Type) where
  capacity : Nat
  nodes : List (Node T)
  hash : List (String × Nat)
  head : Option Nat
  tail : Option Nat
  hitCount : Nat
  missCount : Nat
  evictionCount : Nat
deriving Repr, DecidableEq

/-- `Map.get(key)`: the node index bound to `key`, if any. -/
def hashGet (h : List (String × Nat)) (k : String) : Option Nat :=
  (h.find? (fun p => p.1 == k)).map Prod.snd

/-- `Map.set(key, id)`: overwrite the existing binding in place, else append. -/
def hashSet (h : List (String × Nat)) (k : String) (id : Nat) :
    List (String × Nat) :=
  if (h.find? (fun p => p.1 == k)).isSome then
    h.map (fun p => if p.1 == k then (k, id) else p)
  else
    h ++ [(k, id)]

/-- `Map.delete(key)`. -/
def hashDelete (h : List (String × Nat)) (k : String) : List (String × Nat) :=
  h.filter (fun p => !(p.1 == k))

/-- Mutate the node stored at arena index `id` (a no-op on a dangling index,
which the source can never produce). -/
def Cache.modifyNode {T : Type} (c : Cache T) (id : Nat)
    (f : Node T → Node T) : Cache T :=
  match c.nodes[id]? with
  | some n => { c with nodes := c.nodes.set id (f n) }
  | none => c

/-- `private evict(node)`: splice `node` out of the list, patch `head`/`tail`,
null its own links, and delete its key from the index.  Field reads follow the
source line by line, re-reading from the arena after each mutation. -/
def evict {T : Type} (c : Cache T) (id : Nat) : Cache T :=
  match c.nodes[id]? with
  | none => c
  | some n0 =>
    -- if (node.prev !== undefined) node.prev.next = node.next
    let c1 := match n0.prev with
      | some p => c.modifyNode p (fun m => { m with next := n0.next })
      | none => c
    let n1 := (c1.nodes[id]?).getD n0
    -- if (node.next !== undefined) node.next.prev = node.prev
    let c2 := match n1.next with
      | some q => c1.modifyNode q (fun m => { m with prev := n1.prev })
      | none => c1
    let n2 := (c2.nodes[id]?).getD n0
    -- if (node === this.head) this.head = node.next
    let c3 := if c2.head = some id then { c2 with head := n2.next } else c2
    -- if (node === this.tail) this.tail = node.prev
    let c4 := if c3.tail = some id then { c3 with tail := n2.prev } else c3
    -- node.next = node.prev = undefined
    let c5 := c4.modifyNode id (fun m => { m with next := none, prev := none })
    -- this.hash.delete(node.key)
    let n3 := (c5.nodes[id]?).getD n0
    { c5 with hash := hashDelete c5.hash n3.key }

/-- `private prepend(key, value, ttl)`: allocate a fresh node, register it in
the index, and splice it in as the new head.  Returns the new node's index. -/
def prepend {T : Type} (c : Cache T) (k : String) (v : T) (t : Nat) :
    Cache T × Nat :=
  let id := c.nodes.length
  let node : Node T := { key := k, value := v, ttl := t, prev := none, next := none }
  -- const node = { key, value, ttl }; this.hash.set(key, node)
  let c1 : Cache T :=
    { c with nodes := c.nodes ++ [node], hash := hashSet c.hash k id }
  match c1.head with
  | none =>
    -- this.head = this.tail = node
    ({ c1 with head := some id, tail := some id }, id)
  | some h =>
    -- node.next = this.head; this.head.prev = node; this.head = node
    let c2 := c1.modifyNode id (fun m => { m with next := some h })
    let c3 := c2.modifyNode h (fun m => { m with prev := some id })
    ({ c3 with head := some id }, id)

/-- `private pop()`: unlink and return the tail node (if any). -/
def pop {T : Type} (c : Cache T) : Cache T × Option Nat :=
  match c.tail with
  | none => (c, none)
  | some t =>
    -- if (this.tail?.prev != null)
    let tprev := (c.nodes[t]?).bind Node.prev
    let c1 := match tprev with
      | some p =>
        -- this.tail.prev.next = undefined; this.tail = this.tail.prev
        { c.modifyNode p (fun m => { m with next := none }) with tail := some p }
      | none =>
        -- this.head = this.tail = undefined
        { c with head := none, tail := none }
    -- node.prev = undefined
    let c2 := c1.modifyNode t (fun m => { m with prev := none })
    (c2, some t)

/-- `public put(key, value, ttl)` at time `now` (`Date.now()`): evict any
existing node for `key`, prepend a fresh node expiring at `now + ttl`, and on
overflow pop the tail, drop its key from the index and count one eviction. -/
def put {T : Type} (c : Cache T) (k : String) (v : T) (t : Nat) (now : Nat) :
    Cache T :=
  -- let node = this.hash.get(key); if (node != null) this.evict(node)
  let c1 := match hashGet c.hash k with
    | some id => evict c id
    | none => c
  -- node = this.prepend(key, value, now + ttl); this.hash.set(key, node)
  let pr := prepend c1 k v (now + t)
  let c2 := pr.1
  let c3 := { c2 with hash := hashSet c2.hash k pr.2 }
  -- if (this.hash.size > this.capacity)
  if c3.hash.length > c3.capacity then
    let po := pop c3
    match po.2 with
    | some tl =>
      -- this.hash.delete(tailNode.key); this.evictionCount++
      let tkey := match po.1.nodes[tl]? with
        | some n => n.key
        | none => ""
      { po.1 with hash := hashDelete po.1.hash tkey,
                  evictionCount := po.1.evictionCount + 1 }
    | none => po.1
  else c3

/-- `public get(key)` at time `now`: a missing or expired binding counts a
miss and leaves the structure untouched; a live binding is spliced out,
re-prepended with its original fields, counts a hit, and yields the value. -/
def get {T : Type} (c : Cache T) (k : String) (now : Nat) :
    Cache T × Option T :=
  match hashGet c.hash k with
  | none => ({ c with missCount := c.missCount + 1 }, none)
  | some id =>
    match c.nodes[id]? with
    | none => ({ c with missCount := c.missCount + 1 }, none)
    | some n =>
      -- if (node == null || node.ttl < now)
      if n.ttl < now then
        ({ c with missCount := c.missCount + 1 }, none)
      else
        -- this.evict(node); this.prepend(node.key, node.value, node.ttl)
        let c1 := evict c id
        let n1 := (c1.nodes[id]?).getD n
        let c2 := (prepend c1 n1.key n1.value n1.ttl).1
        ({ c2 with hitCount := c2.hitCount + 1 }, some n1.value)

/-- `public getOption(key)`: the `Option`-monad presentation of `get`; the
source duplicates `get`'s body verbatim and only wraps the result in
`Option.some` / `Option.none`. -/
def getOption {T : Type} (c : Cache T) (k : String) (now : Nat) :
    Cache T × Option T :=
  match hashGet c.hash k with
  | none => ({ c with missCount := c.missCount + 1 }, Option.none)
  | some id =>
    match c.nodes[id]? with
    | none => ({ c with missCount := c.missCount + 1 }, Option.none)
    | some n =>
      if n.ttl < now then
        ({ c with missCount := c.missCount + 1 }, Option.none)
      else
        let c1 := evict c id
        let n1 := (c1.nodes[id]?).getD n
        let c2 := (prepend c1 n1.key n1.value n1.ttl).1
        ({ c2 with hitCount := c2.hitCount + 1 }, Option.some n1.value)

/-- `public clearMetrics()`. -/
def clearMetrics {T : Type} (c : Cache T) : Cache T :=
  { c with hitCount := 0, missCount := 0, evictionCount := 0 }

/-- `public clear()`: `hash.clear()`, unset `head`/`tail`, `clearMetrics()`.
(The now-unreferenced nodes stay in the arena, as garbage stays on the JS
heap.) -/
def clear {T : Type} (c : Cache T) : Cache T :=
  clearMetrics { c with hash := [], head := none, tail := none }

/-- `private constructor(capacity)`: fresh empty state; the capacity argument
is stored unchecked. -/
def mkCache (T : Type) (capacity : Nat) : Cache T :=
  { capacity := capacity, nodes := [], hash := [], head := none, tail := none,
    hitCount := 0, missCount := 0, evictionCount := 0 }

/-- `public static getInstance(capacity)`: return the already-built singleton
if one exists, else construct one with the given capacity. -/
def getInstance {T : Type} (inst : Option (Cache T)) (capacity : Nat) :
    Cache T :=
  match inst with
  | some c => c
  | none => mkCache T capacity

/-- A sequence of `put` calls, all at time `now`: each element is
`(key, value, ttl)`. -/
def runPuts {T : Type} (c : Cache T) (ops : List (String × T × Nat))
    (now : Nat) : Cache T :=
  ops.foldl (fun acc o => put acc o.1 o.2.1 o.2.2 now) c

/-- Walk the list from a starting reference following `next`, with fuel
(`debugLRU` does the same bounded walk). -/
def walkNextAux {T : Type} (ns : List (Node T)) :
    Nat → Option Nat → List Nat
  | 0, _ => []
  | _ + 1, none => []
  | fuel + 1, some id => id :: walkNextAux ns fuel ((ns[id]?).bind Node.next)

/-- Walk following `prev`, with fuel. -/
def walkPrevAux {T : Type} (ns : List (Node T)) :
    Nat → Option Nat → List Nat
  | 0, _ => []
  | _ + 1, none => []
  | fuel + 1, some id => id :: walkPrevAux ns fuel ((ns[id]?).bind Node.prev)

/-- The node indices visited walking head → tail via `next`. -/
def walkFwd {T : Type} (c : Cache T) : List Nat :=
  walkNextAux c.nodes (c.nodes.length + 1) c.head

/-- The node indices visited walking tail → head via `prev`. -/
def walkBwd {T : Type} (c : Cache T) : List Nat :=
  walkPrevAux c.nodes (c.nodes.length + 1) c.tail

/-! ## Abstract view

The specification-level view of the cache contents: the recency list as a
plain Lean list of `(key, value, expiresAt)` entries, most recent first. -/

/-- An abstract entry: key, value, absolute expiry. -/
abbrev Entry (T : Type) := String × T × Nat

/-- The abstract entry stored at arena index `id`, forgetting the links. -/
def entryAt {T : Type} (ns : List (Node T)) (id : Nat) : Option (Entry T) :=
  (ns[id]?).map (fun n => (n.key, n.value, n.ttl))

/-- Abstract lookup: the (unique, under `WFL`) entry with key `k`. -/
def lookupE {T : Type} (l : List (Entry T)) (k : String) : Option (Entry T) :=
  l.find? (fun e => e.1 == k)

/-- Abstract removal of the binding for `k`. -/
def eraseKeyE {T : Type} (l : List (Entry T)) (k : String) : List (Entry T) :=
  l.filter (fun e => !(e.1 == k))

/-- Abstract `put`: replace any binding of `k`, cons the new entry in front,
and drop the last (least recent) entry when over capacity. -/
def putA {T : Type} (cap : Nat) (l : List (Entry T)) (k : String) (v : T)
    (exp : Nat) : List (Entry T) :=
  let l1 := (k, v, exp) :: eraseKeyE l k
  if l1.length > cap then l1.dropLast else l1

/-- The index pairs that a contents list `l` carried by nodes `ids`
contributes to the hash. -/
def hashPairs {T : Type} (l : List (Entry T)) (ids : List Nat) :
    List (String × Nat) :=
  List.zipWith (fun (e : Entry T) id => (e.1, id)) l ids

/-- The head of a list of indices, with a default reference. -/
def headOr (l : List Nat) (d : Option Nat) : Option Nat :=
  match l with
  | [] => d
  | a :: _ => some a

/-- The last element of a list of indices, with a default reference. -/
def lastOr (l : List Nat) (d : Option Nat) : Option Nat :=
  match l.getLast? with
  | some a => some a
  | none => d

/-- A doubly linked chain: `segT ns pl ids nr` says the arena indices `ids`
form a consecutive chain whose first node's `prev` is `pl`, each node's `next`
is the following index, and the last node's `next` is `nr`. -/
def segT {T : Type} (ns : List (Node T)) : Option Nat → List Nat → Option Nat → Prop
  | _, [], _ => True
  | pl, a :: rest, nr =>
    (∃ n, ns[a]? = some n ∧ n.prev = pl ∧ n.next = headOr rest nr) ∧
    segT ns (some a) rest nr

/-- Structural well-formedness: the cache `c` consists exactly of the chain
`ids` carrying the abstract contents `l` — the chain is doubly linked and
terminated, `head`/`tail` are its two ends, the indices are distinct, node
`ids[i]` carries entry `l[i]`, and the hash is (up to `Map` insertion order)
exactly the key → index association of the chain, with pairwise distinct
keys. -/
structure WFL {T : Type} (c : Cache T) (ids : List Nat) (l : List (Entry T)) :
    Prop where
  chain : segT c.nodes none ids none
  head_eq : c.head = ids.head?
  tail_eq : c.tail = ids.getLast?
  nodup : ids.Nodup
  entries : List.Forall₂ (fun id e => entryAt c.nodes id = some e) ids l
  hash_perm : c.hash.Perm (hashPairs l ids)
  keys_nodup : (l.map (fun e => e.1)).Nodup

/-- `c` is a consistent cache whose recency-ordered contents are `l`. -/
def Models {T : Type} (c : Cache T) (l : List (Entry T)) : Prop :=
  ∃ ids, WFL c ids l

/-! ## `hashPairs` and `Forall₂` plumbing -/

theorem hashPairs_map_fst {T : Type} :
    ∀ (l : List (Entry T)) (ids : List Nat), l.length = ids.length →
      (hashPairs l ids).map Prod.fst = l.map (fun e => e.1)
  | [], [], _ => rfl
  | [], _ :: _, h => by simp at h
  | _ :: _, [], h => by simp at h
  | e :: l, i :: ids, h => by
    show (e.1, i).1 :: (hashPairs l ids).map Prod.fst = e.1 :: l.map (fun x => x.1)
    rw [hashPairs_map_fst l ids (by simpa using h)]

theorem hashPairs_append {T : Type} {l₁ l₂ : List (Entry T)}
    {ids₁ ids₂ : List Nat} (h : l₁.length = ids₁.length) :
    hashPairs (l₁ ++ l₂) (ids₁ ++ ids₂) = hashPairs l₁ ids₁ ++ hashPairs l₂ ids₂ :=
  List.zipWith_append _ l₁ l₂ ids₁ ids₂ h

theorem hashPairs_length {T : Type} {l : List (Entry T)} {ids : List Nat}
    (h : l.length = ids.length) : (hashPairs l ids).length = l.length := by
  unfold hashPairs
  rw [List.length_zipWith]
  omega

theorem forall₂_append_cons {α β : Type} {R : α → β → Prop} :
    ∀ (as : List α) (bs : List β) (a : α) (b : β) (as' : List α) (bs' : List β),
      as.length = bs.length →
      List.Forall₂ R (as ++ a :: as') (bs ++ b :: bs') →
      List.Forall₂ R as bs ∧ R a b ∧ List.Forall₂ R as' bs'
  | [], [], a, b, as', bs', _, h => by
    rcases List.forall₂_cons.mp h with ⟨hab, htail⟩
    exact ⟨List.Forall₂.nil, hab, htail⟩
  | [], _ :: _, _, _, _, _, h, _ => by simp at h
  | _ :: _, [], _, _, _, _, h, _ => by simp at h
  | x :: as, y :: bs, a, b, as', bs', hlen, h => by
    rcases List.forall₂_cons.mp h with ⟨hxy, htail⟩
    rcases forall₂_append_cons as bs a b as' bs' (by simpa using hlen) htail with
      ⟨h1, h2, h3⟩
    exact ⟨List.Forall₂.cons hxy h1, h2, h3⟩

theorem keys_nodup_split {T : Type} {l₁ l₂ : List (Entry T)} {e : Entry T}
    (nd : ((l₁ ++ e :: l₂).map (fun x => x.1)).Nodup) :
    (∀ x ∈ l₁, ¬ x.1 = e.1) ∧ (∀ x ∈ l₂, ¬ x.1 = e.1) ∧
      ((l₁ ++ l₂).map (fun x => x.1)).Nodup := by
  rw [List.map_append, List.nodup_append] at nd
  obtain ⟨nd1, nd2, hdisj⟩ := nd
  rw [List.map_cons, List.nodup_cons] at nd2
  obtain ⟨hknotin, nd2t⟩ := nd2
  refine ⟨?_, ?_, ?_⟩
  · intro x hx hxe
    have hmem : e.1 ∈ l₁.map (fun x => x.1) := by
      rw [← hxe]
      exact List.mem_map_of_mem _ hx
    exact hdisj hmem (List.mem_cons_self _ _)
  · intro x hx hxe
    have hmem : e.1 ∈ l₂.map (fun x => x.1) := by
      rw [← hxe]
      exact List.mem_map_of_mem _ hx
    exact hknotin hmem
  · rw [List.map_append, List.nodup_append]
    exact ⟨nd1, nd2t, fun {a} hm1 hm2 => hdisj hm1 (List.mem_cons_of_mem _ hm2)⟩

theorem lookupE_cons_pos {T : Type} {e0 : Entry T} {l : List (Entry T)}
    {k : String} (hk : (e0.1 == k) = true) : lookupE (e0 :: l) k = some e0 := by
  simp only [lookupE, List.find?_cons, hk]

theorem lookupE_cons_neg {T : Type} {e0 : Entry T} {l : List (Entry T)}
    {k : String} (hk : (e0.1 == k) = false) : lookupE (e0 :: l) k = lookupE l k := by
  simp only [lookupE, List.find?_cons, hk]

theorem hashGet_cons_pos {a k : String} {i : Nat} {h : List (String × Nat)}
    (hk : (a == k) = true) : hashGet ((a, i) :: h) k = some i := by
  simp only [hashGet, List.find?_cons, hk]
  rfl

theorem hashGet_cons_neg {a k : String} {i : Nat} {h : List (String × Nat)}
    (hk : (a == k) = false) : hashGet ((a, i) :: h) k = hashGet h k := by
  simp only [hashGet, List.find?_cons, hk]

/-- Lookup in the zipped key → index pairs, related to abstract lookup,
with the explicit split of both lists at the hit position. -/
theorem pairs_lookup {T : Type} :
    ∀ (l : List (Entry T)) (ids : List Nat), l.length = ids.length →
      ∀ (k : String),
      (lookupE l k = none → hashGet (hashPairs l ids) k = none) ∧
      (∀ e, lookupE l k = some e → ∃ l₁ l₂ ids₁ i ids₂,
        l = l₁ ++ e :: l₂ ∧ ids = ids₁ ++ i :: ids₂ ∧ ids₁.length = l₁.length ∧
        hashGet (hashPairs l ids) k = some i ∧ e.1 = k)
  | [], [], _, k => by
    constructor
    · intro _; rfl
    · intro e he; simp [lookupE] at he
  | [], _ :: _, h, k => by simp at h
  | _ :: _, [], h, k => by simp at h
  | e0 :: l, i0 :: ids, h, k => by
    have hlen2 : l.length = ids.length := by simpa using h
    have hPairs : hashPairs (e0 :: l) (i0 :: ids) = (e0.1, i0) :: hashPairs l ids := rfl
    cases hbe : (e0.1 == k) with
    | true =>
      constructor
      · intro hnone
        rw [lookupE_cons_pos hbe] at hnone
        simp at hnone
      · intro e he
        rw [lookupE_cons_pos hbe] at he
        injection he with he2
        subst he2
        refine ⟨[], l, [], i0, ids, rfl, rfl, rfl, ?_, eq_of_beq hbe⟩
        rw [hPairs, hashGet_cons_pos hbe]
    | false =>
      have ih := pairs_lookup l ids hlen2 k
      constructor
      · intro hnone
        rw [lookupE_cons_neg hbe] at hnone
        rw [hPairs, hashGet_cons_neg hbe]
        exact ih.1 hnone
      · intro e he
        rw [lookupE_cons_neg hbe] at he
        obtain ⟨l₁, l₂, ids₁, i, ids₂, hl, hids, hl2, hget, hek⟩ := ih.2 e he
        refine ⟨e0 :: l₁, l₂, i0 :: ids₁, i, ids₂, by rw [hl]; rfl, by rw [hids]; rfl,
          by simpa using hl2, ?_, hek⟩
        rw [hPairs, hashGet_cons_neg hbe]
        exact hget

/-- The states producible through the public interface from construction. -/
inductive Reachable {T : Type} : Cache T → Prop
  | init (cap : Nat) : Reachable (mkCache T cap)
  | put {c : Cache T} (k : String) (v : T) (t now : Nat) :
      Reachable c → Reachable (put c k v t now)
  | get {c : Cache T} (k : String) (now : Nat) :
      Reachable c → Reachable ((get c k now).1)
  | getOpt {c : Cache T} (k : String) (now : Nat) :
      Reachable c → Reachable ((getOption c k now).1)
  | clear {c : Cache T} : Reachable c → Reachable (clear c)

/-! ## Generic list helpers -/

theorem headOr_append {xs ys : List Nat} {d : Option Nat} :
    headOr (xs ++ ys) d = headOr xs (headOr ys d) := by
  cases xs <;> rfl

theorem headOr_none_eq_head? {xs : List Nat} : headOr xs none = xs.head? := by
  cases xs <;> rfl

theorem lastOr_none_eq_getLast? {xs : List Nat} : lastOr xs none = xs.getLast? := by
  unfold lastOr
  cases xs.getLast? <;> rfl

theorem lastOr_cons {a : Nat} {xs : List Nat} {d : Option Nat} :
    lastOr (a :: xs) d = lastOr xs (some a) := by
  unfold lastOr
  cases xs with
  | nil => rfl
  | cons b xs' =>
    rw [List.getLast?_cons_cons]
    cases hx : (b :: xs').getLast? with
    | none =>
      rw [List.getLast?_eq_none_iff] at hx
      exact absurd hx (List.cons_ne_nil b xs')
    | some z => rfl

/-- With pairwise distinct `f`-images, two members of a list with the same
`f`-image coincide. -/
theorem eq_of_proj_nodup {α : Type} (f : α → String) :
    ∀ {l : List α}, (l.map f).Nodup →
      ∀ {x y : α}, x ∈ l → y ∈ l → f x = f y → x = y := by
  intro l
  induction l with
  | nil => intro _ x y hx; exact absurd hx (List.not_mem_nil x)
  | cons a t ih =>
    intro nd x y hx hy hfxy
    rw [List.map_cons, List.nodup_cons] at nd
    rcases List.mem_cons.mp hx with rfl | hx' <;>
      rcases List.mem_cons.mp hy with rfl | hy'
    · rfl
    · exact absurd (hfxy ▸ List.mem_map_of_mem f hy') nd.1
    · exact absurd (hfxy ▸ List.mem_map_of_mem f hx') nd.1
    · exact ih nd.2 hx' hy' hfxy

/-- `find?` is determined by any member that is the unique satisfier. -/
theorem find?_eq_of_unique {α : Type} {l : List α} {p : α → Bool} {x : α}
    (hx : x ∈ l) (hpx : p x = true) (huniq : ∀ y ∈ l, p y = true → y = x) :
    l.find? p = some x := by
  induction l with
  | nil => exact absurd hx (List.not_mem_nil x)
  | cons a t ih =>
    by_cases hpa : p a = true
    · rw [List.find?_cons_of_pos _ hpa, huniq a (List.mem_cons_self a t) hpa]
    · rw [List.find?_cons_of_neg _ hpa]
      rcases List.mem_cons.mp hx with rfl | hx'
      · exact absurd hpx hpa
      · exact ih hx' (fun y hy => huniq y (List.mem_cons_of_mem a hy))

/-! ## Hash (JS `Map`) lemmas -/

theorem hashGet_eq_none {h : List (String × Nat)} {k : String} :
    hashGet h k = none ↔ ∀ p ∈ h, ¬ p.1 = k := by
  unfold hashGet
  rw [Option.map_eq_none', List.find?_eq_none]
  constructor
  · intro hf p hp
    have := hf p hp
    simpa using this
  · intro hf p hp
    simpa using hf p hp

/-- Looking up a key is insensitive to the order of a key-distinct map. -/
theorem hashGet_perm {h₁ h₂ : List (String × Nat)} (hp : h₁.Perm h₂)
    (nd : (h₂.map Prod.fst).Nodup) (k : String) :
    hashGet h₁ k = hashGet h₂ k := by
  cases hfind : h₂.find? (fun p => p.1 == k) with
  | none =>
    rw [List.find?_eq_none] at hfind
    unfold hashGet
    rw [List.find?_eq_none.mpr (fun x hx => hfind x (hp.mem_iff.mp hx)),
      List.find?_eq_none.mpr hfind]
  | some x =>
    have hxmem : x ∈ h₂ := List.mem_of_find?_eq_some hfind
    have hpx : (x.1 == k) = true := by
      have := List.find?_some hfind
      simpa using this
    have huniq : ∀ y ∈ h₁, (y.1 == k) = true → y = x := by
      intro y hy hpy
      exact eq_of_proj_nodup Prod.fst nd (hp.mem_iff.mp hy) hxmem
        (by rw [eq_of_beq hpy, eq_of_beq hpx])
    unfold hashGet
    rw [hfind, find?_eq_of_unique (hp.mem_iff.mpr hxmem) hpx huniq]

/-- `Map.set` of an absent key appends. -/
theorem hashSet_fresh {h : List (String × Nat)} {k : String} {id : Nat}
    (hk : ∀ p ∈ h, ¬ p.1 = k) : hashSet h k id = h ++ [(k, id)] := by
  unfold hashSet
  rw [if_neg]
  rw [Option.isSome_iff_exists]
  rintro ⟨p, hp⟩
  exact hk p (List.mem_of_find?_eq_some hp) (by simpa using List.find?_some hp)

/-- `Map.set` of a key already bound to the same index is the identity. -/
theorem hashSet_existing_self {h : List (String × Nat)} {k : String} {i : Nat}
    (nd : (h.map Prod.fst).Nodup) (hm : (k, i) ∈ h) : hashSet h k i = h := by
  have hs : (h.find? (fun p => p.1 == k)).isSome = true := by
    rw [List.find?_isSome]
    exact ⟨(k, i), hm, by simp⟩
  unfold hashSet
  rw [if_pos hs]
  have h2 : h.map (fun p => if p.1 == k then (k, i) else p) = h.map id := by
    apply List.map_congr_left
    intro p hp
    by_cases hpk : (p.1 == k) = true
    · have hpe : p = (k, i) := eq_of_proj_nodup Prod.fst nd hp hm (by simpa using hpk)
      subst hpe
      simp
    · simp [hpk]
  rw [h2, List.map_id]

/-! ## Chain lemmas -/

theorem segT_congr {T : Type} {ns ns' : List (Node T)} {L : List Nat} :
    ∀ {pl nr : Option Nat}, (∀ a ∈ L, ns'[a]? = ns[a]?) →
      segT ns pl L nr → segT ns' pl L nr := by
  induction L with
  | nil => intro pl nr _ _; trivial
  | cons a rest ih =>
    intro pl nr hf h
    obtain ⟨⟨n, hn, hprev, hnext⟩, htail⟩ := h
    exact ⟨⟨n, (hf a (List.mem_cons_self a rest)).trans hn, hprev, hnext⟩,
      ih (fun b hb => hf b (List.mem_cons_of_mem a hb)) htail⟩

theorem segT_isSome {T : Type} {ns : List (Node T)} {L : List Nat} :
    ∀ {pl nr : Option Nat}, segT ns pl L nr →
      ∀ a ∈ L, ∃ n, ns[a]? = some n := by
  induction L with
  | nil => intro _ _ _ a ha; exact absurd ha (List.not_mem_nil a)
  | cons b rest ih =>
    intro pl nr h a ha
    obtain ⟨⟨n, hn, _, _⟩, htail⟩ := h
    rcases List.mem_cons.mp ha with rfl | ha'
    · exact ⟨n, hn⟩
    · exact ih htail a ha'

theorem segT_append {T : Type} {ns : List (Node T)} {xs : List Nat} :
    ∀ {ys : List Nat} {pl nr : Option Nat},
      segT ns pl (xs ++ ys) nr ↔
        segT ns pl xs (headOr ys nr) ∧ segT ns (lastOr xs pl) ys nr := by
  induction xs with
  | nil =>
    intro ys pl nr
    simp only [List.nil_append]
    constructor
    · intro h; exact ⟨trivial, by simpa [lastOr] using h⟩
    · intro h; simpa [lastOr] using h.2
  | cons a xs' ih =>
    intro ys pl nr
    simp only [List.cons_append]
    show ((∃ n, _) ∧ segT ns (some a) (xs' ++ ys) nr) ↔ _
    rw [ih, lastOr_cons]
    constructor
    · rintro ⟨⟨n, hn, hp, hx⟩, h1, h2⟩
      exact ⟨⟨⟨n, hn, hp, by rwa [headOr_append] at hx⟩, h1⟩, h2⟩
    · rintro ⟨⟨⟨n, hn, hp, hx⟩, h1⟩, h2⟩
      exact ⟨⟨n, hn, hp, by rwa [headOr_append]⟩, h1, h2⟩

theorem lt_of_getElem?_some {α : Type} {l : List α} {i : Nat} {a : α}
    (h : l[i]? = some a) : i < l.length := by
  rcases List.getElem?_eq_some.mp h with ⟨hlt, _⟩
  exact hlt

theorem mem_of_getElem?_some {α : Type} {l : List α} {i : Nat} {a : α}
    (h : l[i]? = some a) : a ∈ l := by
  rcases List.getElem?_eq_some.mp h with ⟨hlt, he⟩
  exact he ▸ List.getElem_mem hlt

/-- Redirecting the `next` pointer of the last node of a chain (and touching
nothing else in the chain) retargets the chain's right terminator. -/
theorem segT_retarget_last {T : Type} {ns ns' : List (Node T)} {x y : Option Nat}
    {L : List Nat} :
    ∀ {p : Nat} {pl : Option Nat},
      L.getLast? = some p → L.Nodup →
      (∀ a ∈ L, a ≠ p → ns'[a]? = ns[a]?) →
      (∀ n, ns[p]? = some n → ns'[p]? = some { n with next := x }) →
      segT ns pl L y → segT ns' pl L x := by
  induction L with
  | nil => intro p pl hlast; simp at hlast
  | cons a rest ih =>
    intro p pl hlast hnd h1 h2 hseg
    obtain ⟨⟨n, hn, hprev, hnext⟩, htail⟩ := hseg
    cases rest with
    | nil =>
      have hap : a = p := by simpa using hlast
      subst hap
      exact ⟨⟨{ n with next := x }, h2 n hn, hprev, rfl⟩, trivial⟩
    | cons b rest' =>
      have hlast' : (b :: rest').getLast? = some p := by
        rw [← List.getLast?_cons_cons]
        exact hlast
      have hpmem : p ∈ b :: rest' := by
        have hx : p ∈ (b :: rest').getLast? := by
          rw [Option.mem_def]
          exact hlast'
        rcases List.mem_getLast?_eq_getLast hx with ⟨hne, hpe⟩
        rw [hpe]
        exact List.getLast_mem hne
      have hap : a ≠ p := by
        intro hap
        exact (List.nodup_cons.mp hnd).1 (hap ▸ hpmem)
      refine ⟨⟨n, (h1 a (List.mem_cons_self a (b :: rest')) hap).trans hn, hprev, hnext⟩, ?_⟩
      exact ih hlast' (List.nodup_cons.mp hnd).2
        (fun c hc hcp => h1 c (List.mem_cons_of_mem a hc) hcp) h2 htail

/-- Redirecting the `prev` pointer of the first node of a chain retargets the
chain's left terminator. -/
theorem segT_reprev_head {T : Type} {ns ns' : List (Node T)}
    {pl pl' nr : Option Nat} {q : Nat} {L : List Nat}
    (h1 : ∀ a ∈ L, ns'[a]? = ns[a]?)
    (h2 : ∀ n, ns[q]? = some n → ns'[q]? = some { n with prev := pl' })
    (hseg : segT ns pl (q :: L) nr) : segT ns' pl' (q :: L) nr := by
  obtain ⟨⟨n, hn, hprev, hnext⟩, htail⟩ := hseg
  exact ⟨⟨{ n with prev := pl' }, h2 n hn, rfl, hnext⟩, segT_congr h1 htail⟩

/-- Walking `next` pointers from the head of a chain visits exactly the
chain. -/
theorem walkNextAux_eq {T : Type} {ns : List (Node T)} {L : List Nat} :
    ∀ {pl : Option Nat} {fuel : Nat}, segT ns pl L none → L.length ≤ fuel →
      walkNextAux ns fuel (headOr L none) = L := by
  induction L with
  | nil =>
    intro pl fuel _ _
    cases fuel <;> rfl
  | cons a rest ih =>
    intro pl fuel hseg hlen
    obtain ⟨⟨n, hn, _, hnext⟩, htail⟩ := hseg
    cases fuel with
    | zero => simp at hlen
    | succ f =>
      show a :: walkNextAux ns f ((ns[a]?).bind Node.next) = a :: rest
      rw [hn]
      show a :: walkNextAux ns f n.next = a :: rest
      rw [hnext, ih htail (Nat.le_of_succ_le_succ hlen)]

/-- Walking `prev` pointers from the tail of a (left-terminated) chain visits
exactly the chain, reversed. -/
theorem walkPrevAux_eq {T : Type} {ns : List (Node T)} {L : List Nat} :
    ∀ {nr : Option Nat} {fuel : Nat}, segT ns none L nr → L.length ≤ fuel →
      walkPrevAux ns fuel L.getLast? = L.reverse := by
  induction L using List.reverseRecOn with
  | nil => intro nr fuel _ _; cases fuel <;> rfl
  | append_singleton init z ih =>
    intro nr fuel hseg hlen
    rw [segT_append] at hseg
    obtain ⟨hinit, hz⟩ := hseg
    obtain ⟨⟨n, hn, hprev, _⟩, _⟩ := hz
    have hLast : (init ++ [z]).getLast? = some z := by simp
    cases fuel with
    | zero => simp at hlen
    | succ f =>
      rw [hLast]
      show z :: walkPrevAux ns f ((ns[z]?).bind Node.prev) = (init ++ [z]).reverse
      rw [hn]
      show z :: walkPrevAux ns f n.prev = (init ++ [z]).reverse
      rw [hprev, lastOr_none_eq_getLast?,
        ih hinit (by simpa using Nat.le_of_succ_le_succ (by simpa using hlen))]
      simp

/-! ## Frame lemmas for `modifyNode` and `entryAt` -/

theorem modifyNode_getElem_ne {T : Type} {c : Cache T} {j i : Nat}
    {f : Node T → Node T} (h : i ≠ j) :
    (c.modifyNode j f).nodes[i]? = c.nodes[i]? := by
  unfold Cache.modifyNode
  cases hj : c.nodes[j]? with
  | none => rfl
  | some n => exact List.getElem?_set_ne (fun e => h e.symm)

theorem modifyNode_getElem_self {T : Type} {c : Cache T} {j : Nat}
    {f : Node T → Node T} {n : Node T} (h : c.nodes[j]? = some n) :
    (c.modifyNode j f).nodes[j]? = some (f n) := by
  unfold Cache.modifyNode
  rw [h]
  exact List.getElem?_set_eq_of_lt (f n) (lt_of_getElem?_some h)

theorem modifyNode_length {T : Type} {c : Cache T} {j : Nat}
    {f : Node T → Node T} : (c.modifyNode j f).nodes.length = c.nodes.length := by
  unfold Cache.modifyNode
  cases c.nodes[j]? with
  | none => rfl
  | some n => exact List.length_set c.nodes j (f n)

theorem modifyNode_capacity {T : Type} {c : Cache T} {j : Nat}
    {f : Node T → Node T} : (c.modifyNode j f).capacity = c.capacity := by
  unfold Cache.modifyNode
  cases c.nodes[j]? <;> rfl

theorem modifyNode_hash {T : Type} {c : Cache T} {j : Nat}
    {f : Node T → Node T} : (c.modifyNode j f).hash = c.hash := by
  unfold Cache.modifyNode
  cases c.nodes[j]? <;> rfl

theorem modifyNode_head {T : Type} {c : Cache T} {j : Nat}
    {f : Node T → Node T} : (c.modifyNode j f).head = c.head := by
  unfold Cache.modifyNode
  cases c.nodes[j]? <;> rfl

theorem modifyNode_tail {T : Type} {c : Cache T} {j : Nat}
    {f : Node T → Node T} : (c.modifyNode j f).tail = c.tail := by
  unfold Cache.modifyNode
  cases c.nodes[j]? <;> rfl

theorem modifyNode_hit {T : Type} {c : Cache T} {j : Nat}
    {f : Node T → Node T} : (c.modifyNode j f).hitCount = c.hitCount := by
  unfold Cache.modifyNode
  cases c.nodes[j]? <;> rfl

theorem modifyNode_miss {T : Type} {c : Cache T} {j : Nat}
    {f : Node T → Node T} : (c.modifyNode j f).missCount = c.missCount := by
  unfold Cache.modifyNode
  cases c.nodes[j]? <;> rfl

theorem modifyNode_evictions {T : Type} {c : Cache T} {j : Nat}
    {f : Node T → Node T} : (c.modifyNode j f).evictionCount = c.evictionCount := by
  unfold Cache.modifyNode
  cases c.nodes[j]? <;> rfl

/-- A node-field update that can only change the two link fields. -/
def LinkOnly {T : Type} (f : Node T → Node T) : Prop :=
  ∀ n, (f n).key = n.key ∧ (f n).value = n.value ∧ (f n).ttl = n.ttl

theorem entryAt_modifyNode {T : Type} {c : Cache T} {j : Nat}
    {f : Node T → Node T} (hf : LinkOnly f) (i : Nat) :
    entryAt (c.modifyNode j f).nodes i = entryAt c.nodes i := by
  by_cases hij : i = j
  · subst hij
    cases hj : c.nodes[i]? with
    | none =>
      unfold entryAt Cache.modifyNode
      rw [hj]
      simp [hj]
    | some n =>
      unfold entryAt
      rw [modifyNode_getElem_self hj, hj]
      obtain ⟨h1, h2, h3⟩ := hf n
      simp [h1, h2, h3]
  · unfold entryAt
    rw [modifyNode_getElem_ne hij]

theorem entryAt_append_left {T : Type} {ns l2 : List (Node T)} {i : Nat}
    (h : i < ns.length) : entryAt (ns ++ l2) i = entryAt ns i := by
  unfold entryAt
  rw [List.getElem?_append_left h]

/-! ## Case-resolved unfoldings of `evict`

The source's `evict` reads `node.prev` / `node.next` and compares `node`
against `head` / `tail`; once those four observations are fixed, its control
flow is fully determined.  The four lemmas below give the resulting state for
each of the possible shapes (interior node, tail node, head node, only
node). -/

theorem evict_eq_mid {T : Type} {c : Cache T} {i p q : Nat} {n0 : Node T}
    (hn0 : c.nodes[i]? = some n0) (hp : n0.prev = some p) (hq : n0.next = some q)
    (hpi : p ≠ i) (hqi : q ≠ i)
    (hh : ¬ c.head = some i) (ht : ¬ c.tail = some i) :
    evict c i =
      (let ca := c.modifyNode p (fun m => { m with next := some q })
      let cb := ca.modifyNode q (fun m => { m with prev := some p })
      let ce := cb.modifyNode i (fun m => { m with next := none, prev := none })
      { ce with hash := hashDelete ce.hash n0.key }) := by
  simp only [evict, hn0, hp, hq, modifyNode_getElem_ne (Ne.symm hpi),
    modifyNode_getElem_ne (Ne.symm hqi), Option.getD_some,
    modifyNode_head, modifyNode_tail, if_neg hh, if_neg ht,
    modifyNode_getElem_self ((modifyNode_getElem_ne (Ne.symm hqi)).trans
      ((modifyNode_getElem_ne (Ne.symm hpi)).trans hn0))]

theorem evict_eq_last {T : Type} {c : Cache T} {i p : Nat} {n0 : Node T}
    (hn0 : c.nodes[i]? = some n0) (hp : n0.prev = some p) (hq : n0.next = none)
    (hpi : p ≠ i) (hh : ¬ c.head = some i) (ht : c.tail = some i) :
    evict c i =
      (let ca := c.modifyNode p (fun m => { m with next := none })
      let cd := { ca with tail := some p }
      let ce := cd.modifyNode i (fun m => { m with next := none, prev := none })
      { ce with hash := hashDelete ce.hash n0.key }) := by
  have hcd : ({ c.modifyNode p (fun m => { m with next := none }) with
      tail := some p } : Cache T).nodes[i]? = some n0 :=
    (modifyNode_getElem_ne (Ne.symm hpi)).trans hn0
  have hhM : ¬ (c.modifyNode p (fun m => { m with next := none })).head = some i :=
    fun hcon => hh (modifyNode_head.symm.trans hcon)
  have htM : (c.modifyNode p (fun m => { m with next := none })).tail = some i :=
    modifyNode_tail.trans ht
  simp only [evict, hn0, hp, hq, modifyNode_getElem_ne (Ne.symm hpi),
    Option.getD_some, if_neg hhM, if_pos htM, modifyNode_getElem_self hcd]

theorem evict_eq_first {T : Type} {c : Cache T} {i q : Nat} {n0 : Node T}
    (hn0 : c.nodes[i]? = some n0) (hp : n0.prev = none) (hq : n0.next = some q)
    (hqi : q ≠ i) (hh : c.head = some i) (ht : ¬ c.tail = some i) :
    evict c i =
      (let cb := c.modifyNode q (fun m => { m with prev := none })
      let cc := { cb with head := some q }
      let ce := cc.modifyNode i (fun m => { m with next := none, prev := none })
      { ce with hash := hashDelete ce.hash n0.key }) := by
  have hcc : ({ c.modifyNode q (fun m => { m with prev := none }) with
      head := some q } : Cache T).nodes[i]? = some n0 :=
    (modifyNode_getElem_ne (Ne.symm hqi)).trans hn0
  have hhM : (c.modifyNode q (fun m => { m with prev := none })).head = some i :=
    modifyNode_head.trans hh
  have htM : ¬ (c.modifyNode q (fun m => { m with prev := none })).tail = some i :=
    fun hcon => ht (modifyNode_tail.symm.trans hcon)
  simp only [evict, hn0, hp, hq, modifyNode_getElem_ne (Ne.symm hqi),
    Option.getD_some, if_pos hhM, if_neg htM, modifyNode_getElem_self hcc]

theorem evict_eq_only {T : Type} {c : Cache T} {i : Nat} {n0 : Node T}
    (hn0 : c.nodes[i]? = some n0) (hp : n0.prev = none) (hq : n0.next = none)
    (hh : c.head = some i) (ht : c.tail = some i) :
    evict c i =
      (let cd := { c with head := none, tail := none }
      let ce := cd.modifyNode i (fun m => { m with next := none, prev := none })
      { ce with hash := hashDelete ce.hash n0.key }) := by
  have hcd : ({ c with head := none, tail := none } : Cache T).nodes[i]? = some n0 :=
    hn0
  simp only [evict, hn0, hp, hq, Option.getD_some, if_pos hh, if_pos ht,
    modifyNode_getElem_self hcd]

/-! ## Consequences of well-formedness -/

theorem mem_of_head?_some {α : Type} {l : List α} {a : α}
    (h : l.head? = some a) : a ∈ l := by
  cases l with
  | nil => cases h
  | cons b t =>
    rw [List.head?_cons] at h
    injection h with h2
    rw [← h2]
    exact List.mem_cons_self b t

theorem mem_of_getLast?_some {α : Type} {l : List α} {a : α}
    (h : l.getLast? = some a) : a ∈ l := by
  have hx : a ∈ l.getLast? := by
    rw [Option.mem_def]
    exact h
  rcases List.mem_getLast?_eq_getLast hx with ⟨hne, hpe⟩
  rw [hpe]
  exact List.getLast_mem hne

theorem WFL.len_eq {T : Type} {c : Cache T} {ids : List Nat} {l : List (Entry T)}
    (w : WFL c ids l) : l.length = ids.length :=
  w.entries.length_eq.symm

theorem WFL.pairs_keys_nodup {T : Type} {c : Cache T} {ids : List Nat}
    {l : List (Entry T)} (w : WFL c ids l) :
    ((hashPairs l ids).map Prod.fst).Nodup := by
  rw [hashPairs_map_fst l ids w.len_eq]
  exact w.keys_nodup

theorem WFL.hashGet_pairs {T : Type} {c : Cache T} {ids : List Nat}
    {l : List (Entry T)} (w : WFL c ids l) (k : String) :
    hashGet c.hash k = hashGet (hashPairs l ids) k :=
  hashGet_perm w.hash_perm w.pairs_keys_nodup k

theorem WFL.hash_len {T : Type} {c : Cache T} {ids : List Nat}
    {l : List (Entry T)} (w : WFL c ids l) : c.hash.length = l.length :=
  w.hash_perm.length_eq.trans (hashPairs_length w.len_eq)

theorem WFL.hash_keys_nodup {T : Type} {c : Cache T} {ids : List Nat}
    {l : List (Entry T)} (w : WFL c ids l) : (c.hash.map Prod.fst).Nodup :=
  (w.hash_perm.map Prod.fst).nodup_iff.mpr w.pairs_keys_nodup

theorem wfl_lookup_none {T : Type} {c : Cache T} {ids : List Nat}
    {l : List (Entry T)} (w : WFL c ids l) {k : String}
    (hk : lookupE l k = none) : hashGet c.hash k = none := by
  rw [w.hashGet_pairs k]
  exact (pairs_lookup l ids w.len_eq k).1 hk

theorem wfl_lookup_some {T : Type} {c : Cache T} {ids : List Nat}
    {l : List (Entry T)} (w : WFL c ids l) {k : String} {e : Entry T}
    (he : lookupE l k = some e) :
    ∃ l₁ l₂ ids₁ i ids₂,
      l = l₁ ++ e :: l₂ ∧ ids = ids₁ ++ i :: ids₂ ∧ ids₁.length = l₁.length ∧
      hashGet c.hash k = some i ∧ entryAt c.nodes i = some e ∧ e.1 = k := by
  obtain ⟨l₁, l₂, ids₁, i, ids₂, hl, hids, hlen, hget, hek⟩ :=
    (pairs_lookup l ids w.len_eq k).2 e he
  have hent : entryAt c.nodes i = some e := by
    have h2 := w.entries
    rw [hids, hl] at h2
    exact (forall₂_append_cons ids₁ l₁ i e ids₂ l₂ hlen h2).2.1
  exact ⟨l₁, l₂, ids₁, i, ids₂, hl, hids, hlen,
    (w.hashGet_pairs k).trans hget, hent, hek⟩

/-- Deleting the key of the distinguished middle entry from the zipped pairs
removes exactly that pair. -/
theorem hashDelete_pairs {T : Type} {l₁ l₂ : List (Entry T)} {e : Entry T}
    {ids₁ ids₂ : List Nat} {i : Nat}
    (hlen1 : l₁.length = ids₁.length) (hlen2 : l₂.length = ids₂.length)
    (hk1 : ∀ x ∈ l₁, ¬ x.1 = e.1) (hk2 : ∀ x ∈ l₂, ¬ x.1 = e.1) :
    hashDelete (hashPairs (l₁ ++ e :: l₂) (ids₁ ++ i :: ids₂)) e.1 =
      hashPairs (l₁ ++ l₂) (ids₁ ++ ids₂) := by
  have hfil : ∀ (l : List (Entry T)) (ids : List Nat), l.length = ids.length →
      (∀ x ∈ l, ¬ x.1 = e.1) →
      (hashPairs l ids).filter (fun p => !(p.1 == e.1)) = hashPairs l ids := by
    intro l ids hlen hk
    apply List.filter_eq_self.mpr
    intro x hx
    have hxk : x.1 ∈ l.map (fun y => y.1) := by
      rw [← hashPairs_map_fst l ids hlen]
      exact List.mem_map_of_mem Prod.fst hx
    obtain ⟨y, hy, hyx⟩ := List.mem_map.mp hxk
    have hne : (x.1 == e.1) = false := by
      rw [beq_eq_false_iff_ne, ← hyx]
      exact hk y hy
    rw [hne]
    rfl
  rw [hashPairs_append hlen1, hashPairs_append hlen1]
  unfold hashDelete
  rw [List.filter_append, hfil l₁ ids₁ hlen1 hk1]
  refine congrArg (fun z => hashPairs l₁ ids₁ ++ z) ?_
  show ((e.1, i) :: hashPairs l₂ ids₂).filter (fun p => !(p.1 == e.1)) =
    hashPairs l₂ ids₂
  rw [List.filter_cons]
  have hself : (!((e.1, i).1 == e.1)) = false := by simp
  rw [hself]
  simp only [Bool.false_eq_true, if_false]
  exact hfil l₂ ids₂ hlen2 hk2

/-- The common final step of `evict`: clearing the removed node's links and
deleting its key preserves well-formedness, for any intermediate state `cX`
whose chain already skips the removed node. -/
theorem wfl_of_surgery {T : Type} {c : Cache T} (cX : Cache T) {i : Nat} {n0 : Node T}
    {ids₁ ids₂ : List Nat} {l₁ l₂ : List (Entry T)} {e : Entry T}
    (w : WFL c (ids₁ ++ i :: ids₂) (l₁ ++ e :: l₂))
    (hlen : ids₁.length = l₁.length)
    (hn0 : c.nodes[i]? = some n0)
    (hXhash : cX.hash = c.hash)
    (hXhead : cX.head = (ids₁ ++ ids₂).head?)
    (hXtail : cX.tail = (ids₁ ++ ids₂).getLast?)
    (hXframe : ∀ a ∈ ids₁ ++ ids₂, ids₁.getLast? ≠ some a → ids₂.head? ≠ some a →
      cX.nodes[a]? = c.nodes[a]?)
    (hXlast : ∀ p, ids₁.getLast? = some p → ∀ n, c.nodes[p]? = some n →
      cX.nodes[p]? = some { n with next := headOr ids₂ none })
    (hXfirst : ∀ q, ids₂.head? = some q → ∀ n, c.nodes[q]? = some n →
      cX.nodes[q]? = some { n with prev := lastOr ids₁ none })
    (hXentry : ∀ a, entryAt cX.nodes a = entryAt c.nodes a) :
    WFL { cX.modifyNode i (fun m => { m with next := none, prev := none }) with
          hash := hashDelete
            (cX.modifyNode i (fun m => { m with next := none, prev := none })).hash
            n0.key } (ids₁ ++ ids₂) (l₁ ++ l₂) ∧
    entryAt ({ cX.modifyNode i (fun m => { m with next := none, prev := none }) with
          hash := hashDelete
            (cX.modifyNode i (fun m => { m with next := none, prev := none })).hash
            n0.key } : Cache T).nodes i = some e := by
  obtain ⟨hchain, hhead, htail, hnodup, hentries, hperm, hkeys⟩ := w
  have hnd := hnodup
  rw [List.nodup_append] at hnd
  obtain ⟨nd1, nd2c, disj⟩ := hnd
  rw [List.nodup_cons] at nd2c
  obtain ⟨hi2, nd2⟩ := nd2c
  have hi1 : i ∉ ids₁ := fun hmem => disj hmem (List.mem_cons_self i ids₂)
  have disj2 : List.Disjoint ids₁ ids₂ :=
    fun {a} ha hb => disj ha (List.mem_cons_of_mem i hb)
  obtain ⟨ent1, entE, ent2⟩ :=
    forall₂_append_cons ids₁ l₁ i e ids₂ l₂ hlen hentries
  obtain ⟨hk1, hk2, hknd⟩ := keys_nodup_split hkeys
  rw [segT_append] at hchain
  obtain ⟨hch1, hch2⟩ := hchain
  obtain ⟨⟨nn, hnn, hprev0, hnext0⟩, hchtail⟩ := hch2
  have hnne : nn = n0 := Option.some.inj (hnn.symm.trans hn0)
  subst hnne
  have hLinkOnly : LinkOnly (fun (m : Node T) => { m with next := none, prev := none }) :=
    fun n => ⟨rfl, rfl, rfl⟩
  have hEntrySame : ∀ a,
      entryAt (cX.modifyNode i (fun m => { m with next := none, prev := none })).nodes a
        = entryAt c.nodes a := by
    intro a
    rw [entryAt_modifyNode hLinkOnly a, hXentry a]
  have hkeyE : e.1 = nn.key := by
    unfold entryAt at entE
    rw [hnn] at entE
    injection entE with h4
    rw [← h4]
  have hlen2 : l₂.length = ids₂.length := ent2.length_eq.symm
  refine ⟨⟨?_, ?_, ?_, ?_, ?_, ?_, ?_⟩, ?_⟩
  · -- chain: both halves glued by `segT_append`
    rw [segT_append]
    constructor
    · cases hgl : ids₁.getLast? with
      | none =>
        rw [List.getLast?_eq_none_iff] at hgl
        rw [hgl]
        trivial
      | some p =>
        have hpmem : p ∈ ids₁ := mem_of_getLast?_some hgl
        have hpi : p ≠ i := fun hcon => hi1 (hcon ▸ hpmem)
        refine segT_retarget_last hgl nd1 ?_ ?_ hch1
        · intro a ha hap
          rw [modifyNode_getElem_ne (fun hcon : a = i => hi1 (hcon ▸ ha))]
          refine hXframe a (List.mem_append_left _ ha) ?_ ?_
          · intro hcon
            exact hap (Option.some.inj (hgl.symm.trans hcon)).symm
          · intro hcon
            exact disj2 ha (mem_of_head?_some hcon)
        · intro n hn
          rw [modifyNode_getElem_ne hpi]
          exact hXlast p hgl n hn
    · cases ids₂ with
      | nil => trivial
      | cons q rest =>
        have hqi : q ≠ i := fun hcon => hi2 (hcon ▸ List.mem_cons_self q rest)
        refine segT_reprev_head ?_ ?_ hchtail
        · intro a ha
          have hamem : a ∈ q :: rest := List.mem_cons_of_mem q ha
          rw [modifyNode_getElem_ne (fun hcon : a = i => hi2 (hcon ▸ hamem))]
          refine hXframe a (List.mem_append_right _ hamem) ?_ ?_
          · intro hcon
            exact disj2 (mem_of_getLast?_some hcon) hamem
          · intro hcon
            have haq : q = a := Option.some.inj hcon
            rw [List.nodup_cons] at nd2
            exact nd2.1 (haq ▸ ha)
        · intro n hn
          rw [modifyNode_getElem_ne hqi]
          exact hXfirst q rfl n hn
  · -- head
    exact modifyNode_head.trans hXhead
  · -- tail
    exact modifyNode_tail.trans hXtail
  · exact List.nodup_append.mpr ⟨nd1, nd2, disj2⟩
  · -- entries
    refine List.rel_append ?_ ?_
    · exact ent1.imp (fun a b hab => by rw [hEntrySame a]; exact hab)
    · exact ent2.imp (fun a b hab => by rw [hEntrySame a]; exact hab)
  · -- hash
    show (hashDelete (cX.modifyNode i
      (fun m => { m with next := none, prev := none })).hash nn.key).Perm
      (hashPairs (l₁ ++ l₂) (ids₁ ++ ids₂))
    rw [modifyNode_hash, hXhash, ← hkeyE]
    have h5 := hperm.filter (fun p => !(p.1 == e.1))
    have h6 : (hashPairs (l₁ ++ e :: l₂) (ids₁ ++ i :: ids₂)).filter
        (fun p => !(p.1 == e.1)) = hashPairs (l₁ ++ l₂) (ids₁ ++ ids₂) :=
      hashDelete_pairs hlen.symm hlen2 hk1 hk2
    show (c.hash.filter (fun p => !(p.1 == e.1))).Perm
      (hashPairs (l₁ ++ l₂) (ids₁ ++ ids₂))
    rw [← h6]
    exact h5
  · exact hknd
  · -- the removed node keeps its payload
    show entryAt (cX.modifyNode i
      (fun m => { m with next := none, prev := none })).nodes i = some e
    rw [hEntrySame i]
    exact entE

theorem lastOr_concat {l : List Nat} {a : Nat} {d : Option Nat} :
    lastOr (l ++ [a]) d = some a := by
  unfold lastOr
  simp

/-- `evict` on the node holding the middle entry of a well-formed cache
removes exactly that entry, leaving everything else (including the removed
node's stored payload and all counters) unchanged. -/
theorem evict_wfl {T : Type} {c : Cache T} {ids₁ ids₂ : List Nat} {i : Nat}
    {l₁ l₂ : List (Entry T)} {e : Entry T}
    (w : WFL c (ids₁ ++ i :: ids₂) (l₁ ++ e :: l₂))
    (hlen : ids₁.length = l₁.length) :
    WFL (evict c i) (ids₁ ++ ids₂) (l₁ ++ l₂) ∧
    entryAt (evict c i).nodes i = some e ∧
    (evict c i).capacity = c.capacity ∧
    (evict c i).nodes.length = c.nodes.length ∧
    (evict c i).hitCount = c.hitCount ∧
    (evict c i).missCount = c.missCount ∧
    (evict c i).evictionCount = c.evictionCount ∧
    (evict c i).hash = hashDelete c.hash e.1 := by
  have hch := w.chain
  rw [segT_append] at hch
  obtain ⟨hch1, hch2⟩ := hch
  obtain ⟨⟨n0, hn0, hprev0, hnext0⟩, hchtail⟩ := hch2
  have hnodup := w.nodup
  rw [List.nodup_append] at hnodup
  obtain ⟨nd1, nd2c, disj⟩ := hnodup
  rw [List.nodup_cons] at nd2c
  obtain ⟨hi2, nd2⟩ := nd2c
  have hi1 : i ∉ ids₁ := fun hmem => disj hmem (List.mem_cons_self i ids₂)
  have disj2 : List.Disjoint ids₁ ids₂ :=
    fun {a} ha hb => disj ha (List.mem_cons_of_mem i hb)
  have hkeyE : e.1 = n0.key := by
    have entE := (forall₂_append_cons ids₁ l₁ i e ids₂ l₂ hlen w.entries).2.1
    unfold entryAt at entE
    rw [hn0] at entE
    injection entE with h4
    rw [← h4]
  rcases List.eq_nil_or_concat ids₁ with hids1 | ⟨init, p, hids1⟩
  · subst hids1
    cases ids₂ with
    | nil =>
      -- the only node
      have hp2 : n0.prev = none := hprev0
      have hq2 : n0.next = none := hnext0
      have hh : c.head = some i := w.head_eq
      have ht : c.tail = some i := w.tail_eq
      rw [evict_eq_only hn0 hp2 hq2 hh ht]
      have hkey := wfl_of_surgery
        ({ c with head := none, tail := none } : Cache T) w hlen hn0
        rfl rfl rfl
        (fun a ha => absurd ha (List.not_mem_nil a))
        (fun p' hp' => Option.noConfusion hp')
        (fun q' hq' => Option.noConfusion hq')
        (fun a => rfl)
      refine ⟨hkey.1, hkey.2, modifyNode_capacity, modifyNode_length,
        modifyNode_hit, modifyNode_miss, modifyNode_evictions, ?_⟩
      rw [hkeyE]
      exact congrArg (fun z => hashDelete z n0.key) modifyNode_hash
    | cons q rest =>
      -- head node with a successor
      have hp2 : n0.prev = none := hprev0
      have hq2 : n0.next = some q := hnext0
      have hqi : q ≠ i := fun hcon => hi2 (hcon ▸ List.mem_cons_self q rest)
      have hh : c.head = some i := w.head_eq
      have ht : ¬ c.tail = some i := by
        intro hcon
        rw [w.tail_eq, List.nil_append, List.getLast?_cons_cons] at hcon
        exact hi2 (mem_of_getLast?_some hcon)
      rw [evict_eq_first hn0 hp2 hq2 hqi hh ht]
      have hXtail : ({ c.modifyNode q (fun m => { m with prev := none }) with
          head := some q } : Cache T).tail = (([] : List Nat) ++ q :: rest).getLast? := by
        show (c.modifyNode q (fun m => { m with prev := none })).tail = _
        rw [modifyNode_tail, w.tail_eq, List.nil_append, List.nil_append,
          List.getLast?_cons_cons]
      have hXframe : ∀ a ∈ ([] : List Nat) ++ q :: rest,
          ([] : List Nat).getLast? ≠ some a → (q :: rest).head? ≠ some a →
          ({ c.modifyNode q (fun m => { m with prev := none }) with
            head := some q } : Cache T).nodes[a]? = c.nodes[a]? := by
        intro a ha _ hnothead
        have haq : a ≠ q := fun hcon => hnothead (by rw [hcon]; rfl)
        exact modifyNode_getElem_ne haq
      have hXfirst : ∀ q', (q :: rest).head? = some q' → ∀ n, c.nodes[q']? = some n →
          ({ c.modifyNode q (fun m => { m with prev := none }) with
            head := some q } : Cache T).nodes[q']? =
            some { n with prev := lastOr ([] : List Nat) none } := by
        intro q' hq' n hn
        have hqq : q = q' := Option.some.inj hq'
        subst hqq
        rw [modifyNode_getElem_self hn]
        rfl
      have hkey := wfl_of_surgery
        ({ c.modifyNode q (fun m => { m with prev := none }) with
          head := some q } : Cache T) w hlen hn0
        modifyNode_hash rfl hXtail hXframe
        (fun p' hp' => Option.noConfusion hp')
        hXfirst
        (by
          intro a
          apply entryAt_modifyNode
          exact fun n => ⟨rfl, rfl, rfl⟩)
      refine ⟨hkey.1, hkey.2,
        modifyNode_capacity.trans modifyNode_capacity,
        modifyNode_length.trans modifyNode_length,
        modifyNode_hit.trans modifyNode_hit,
        modifyNode_miss.trans modifyNode_miss,
        modifyNode_evictions.trans modifyNode_evictions, ?_⟩
      rw [hkeyE]
      exact congrArg (fun z => hashDelete z n0.key)
        (modifyNode_hash.trans modifyNode_hash)
  · rw [List.concat_eq_append] at hids1
    subst hids1
    have hpmem : p ∈ init ++ [p] := List.mem_append_right init (List.mem_singleton.mpr rfl)
    have hpi : p ≠ i := fun hcon => hi1 (hcon ▸ hpmem)
    have hp2 : n0.prev = some p := hprev0.trans lastOr_concat
    have hh : ¬ c.head = some i := by
      intro hcon
      rw [w.head_eq, List.head?_append_of_ne_nil _ (by simp)] at hcon
      exact hi1 (mem_of_head?_some hcon)
    cases ids₂ with
    | nil =>
      -- tail node with a predecessor
      have hq2 : n0.next = none := hnext0
      have ht : c.tail = some i := by
        rw [w.tail_eq]
        simp
      rw [evict_eq_last hn0 hp2 hq2 hpi hh ht]
      have hXhead : ({ c.modifyNode p (fun m => { m with next := none }) with
          tail := some p } : Cache T).head = ((init ++ [p]) ++ ([] : List Nat)).head? := by
        show (c.modifyNode p (fun m => { m with next := none })).head = _
        rw [modifyNode_head, w.head_eq, List.append_nil,
          List.head?_append_of_ne_nil _ (by simp)]
      have hXtail : ({ c.modifyNode p (fun m => { m with next := none }) with
          tail := some p } : Cache T).tail = ((init ++ [p]) ++ ([] : List Nat)).getLast? := by
        show some p = _
        rw [List.append_nil]
        simp
      have hXframe : ∀ a ∈ (init ++ [p]) ++ ([] : List Nat),
          (init ++ [p]).getLast? ≠ some a → ([] : List Nat).head? ≠ some a →
          ({ c.modifyNode p (fun m => { m with next := none }) with
            tail := some p } : Cache T).nodes[a]? = c.nodes[a]? := by
        intro a _ hnotlast _
        have hap : a ≠ p := fun hcon => hnotlast (by simp [hcon])
        exact modifyNode_getElem_ne hap
      have hXlast : ∀ p', (init ++ [p]).getLast? = some p' →
          ∀ n, c.nodes[p']? = some n →
          ({ c.modifyNode p (fun m => { m with next := none }) with
            tail := some p } : Cache T).nodes[p']? =
            some { n with next := headOr ([] : List Nat) none } := by
        intro p' hp' n hn
        have hpp : p = p' := by
          have h7 : (init ++ [p]).getLast? = some p := by simp
          exact Option.some.inj (h7.symm.trans hp')
        subst hpp
        rw [modifyNode_getElem_self hn]
        rfl
      have hkey := wfl_of_surgery
        ({ c.modifyNode p (fun m => { m with next := none }) with
          tail := some p } : Cache T) w hlen hn0
        modifyNode_hash hXhead hXtail hXframe hXlast
        (fun q' hq' => Option.noConfusion hq')
        (by
          intro a
          apply entryAt_modifyNode
          exact fun n => ⟨rfl, rfl, rfl⟩)
      refine ⟨hkey.1, hkey.2,
        modifyNode_capacity.trans modifyNode_capacity,
        modifyNode_length.trans modifyNode_length,
        modifyNode_hit.trans modifyNode_hit,
        modifyNode_miss.trans modifyNode_miss,
        modifyNode_evictions.trans modifyNode_evictions, ?_⟩
      rw [hkeyE]
      exact congrArg (fun z => hashDelete z n0.key)
        (modifyNode_hash.trans modifyNode_hash)
    | cons q rest =>
      -- interior node
      have hq2 : n0.next = some q := hnext0
      have hqmem : q ∈ q :: rest := List.mem_cons_self q rest
      have hqi : q ≠ i := fun hcon => hi2 (hcon ▸ hqmem)
      have hpq : p ≠ q := fun hcon => disj2 hpmem (hcon ▸ hqmem)
      have ht : ¬ c.tail = some i := by
        intro hcon
        rw [w.tail_eq, List.getLast?_append_cons, List.getLast?_cons_cons] at hcon
        exact hi2 (mem_of_getLast?_some hcon)
      rw [evict_eq_mid hn0 hp2 hq2 hpi hqi hh ht]
      have hXhead : ((c.modifyNode p (fun m => { m with next := some q })).modifyNode q
          (fun m => { m with prev := some p })).head =
          ((init ++ [p]) ++ q :: rest).head? := by
        rw [modifyNode_head, modifyNode_head, w.head_eq,
          List.head?_append_of_ne_nil (init ++ [p]) (by simp),
          List.head?_append_of_ne_nil (init ++ [p]) (by simp)]
      have hXtail : ((c.modifyNode p (fun m => { m with next := some q })).modifyNode q
          (fun m => { m with prev := some p })).tail =
          ((init ++ [p]) ++ q :: rest).getLast? := by
        rw [modifyNode_tail, modifyNode_tail, w.tail_eq,
          List.getLast?_append_cons, List.getLast?_cons_cons,
          List.getLast?_append_cons]
      have hXframe : ∀ a ∈ (init ++ [p]) ++ q :: rest,
          (init ++ [p]).getLast? ≠ some a → (q :: rest).head? ≠ some a →
          ((c.modifyNode p (fun m => { m with next := some q })).modifyNode q
            (fun m => { m with prev := some p })).nodes[a]? = c.nodes[a]? := by
        intro a _ hnotlast hnothead
        have hap : a ≠ p := fun hcon => hnotlast (by simp [hcon])
        have haq : a ≠ q := fun hcon => hnothead (by rw [hcon]; rfl)
        rw [modifyNode_getElem_ne haq, modifyNode_getElem_ne hap]
      have hXlast : ∀ p', (init ++ [p]).getLast? = some p' →
          ∀ n, c.nodes[p']? = some n →
          ((c.modifyNode p (fun m => { m with next := some q })).modifyNode q
            (fun m => { m with prev := some p })).nodes[p']? =
            some { n with next := headOr (q :: rest) none } := by
        intro p' hp' n hn
        have hpp : p = p' := by
          have h7 : (init ++ [p]).getLast? = some p := by simp
          exact Option.some.inj (h7.symm.trans hp')
        subst hpp
        rw [modifyNode_getElem_ne hpq, modifyNode_getElem_self hn]
        rfl
      have hXfirst : ∀ q', (q :: rest).head? = some q' →
          ∀ n, c.nodes[q']? = some n →
          ((c.modifyNode p (fun m => { m with next := some q })).modifyNode q
            (fun m => { m with prev := some p })).nodes[q']? =
            some { n with prev := lastOr (init ++ [p]) none } := by
        intro q' hq' n hn
        have hqq : q = q' := Option.some.inj hq'
        subst hqq
        rw [lastOr_concat]
        have hn' : (c.modifyNode p (fun m => { m with next := some q })).nodes[q]? =
            some n := (modifyNode_getElem_ne (Ne.symm hpq)).trans hn
        rw [modifyNode_getElem_self hn']
      have hkey := wfl_of_surgery
        ((c.modifyNode p (fun m => { m with next := some q })).modifyNode q
          (fun m => { m with prev := some p })) w hlen hn0
        (modifyNode_hash.trans modifyNode_hash)
        hXhead hXtail hXframe hXlast hXfirst
        (by
          intro a
          refine (entryAt_modifyNode ?_ a).trans (entryAt_modifyNode ?_ a) <;>
            exact fun n => ⟨rfl, rfl, rfl⟩)
      refine ⟨hkey.1, hkey.2,
        modifyNode_capacity.trans (modifyNode_capacity.trans modifyNode_capacity),
        modifyNode_length.trans (modifyNode_length.trans modifyNode_length),
        modifyNode_hit.trans (modifyNode_hit.trans modifyNode_hit),
        modifyNode_miss.trans (modifyNode_miss.trans modifyNode_miss),
        modifyNode_evictions.trans (modifyNode_evictions.trans modifyNode_evictions), ?_⟩
      rw [hkeyE]
      exact congrArg (fun z => hashDelete z n0.key)
        (modifyNode_hash.trans (modifyNode_hash.trans modifyNode_hash))

/-! ## `prepend` preserves well-formedness -/

theorem lookupE_eq_none {T : Type} {l : List (Entry T)} {k : String} :
    lookupE l k = none ↔ ∀ x ∈ l, ¬ x.1 = k := by
  unfold lookupE
  rw [List.find?_eq_none]
  constructor <;> intro h x hx <;> have h9 := h x hx <;> simpa using h9

theorem forall₂_congr_left {α β : Type} {R R2 : α → β → Prop} :
    ∀ {l₁ : List α} {l₂ : List β}, (∀ a ∈ l₁, ∀ b, R a b → R2 a b) →
      List.Forall₂ R l₁ l₂ → List.Forall₂ R2 l₁ l₂ := by
  intro l₁
  induction l₁ with
  | nil =>
    intro l₂ _ h
    rw [List.forall₂_nil_left_iff.mp h]
    exact List.Forall₂.nil
  | cons a as ih =>
    intro l₂ himp h
    obtain ⟨b, bs, hab, htail, rfl⟩ := List.forall₂_cons_left_iff.mp h
    exact List.Forall₂.cons (himp a (List.mem_cons_self a as) b hab)
      (ih (fun x hx => himp x (List.mem_cons_of_mem a hx)) htail)

theorem wfl_ids_lt {T : Type} {c : Cache T} {ids : List Nat} {l : List (Entry T)}
    (w : WFL c ids l) : ∀ b ∈ ids, b < c.nodes.length := by
  intro b hb
  obtain ⟨n, hn⟩ := segT_isSome w.chain b hb
  exact lt_of_getElem?_some hn

theorem wfl_hash_fresh {T : Type} {c : Cache T} {ids : List Nat}
    {l : List (Entry T)} (w : WFL c ids l) {k : String}
    (hk : ∀ x ∈ l, ¬ x.1 = k) : ∀ p2 ∈ c.hash, ¬ p2.1 = k := by
  intro p2 hp2 hcon
  have hmem := w.hash_perm.mem_iff.mp hp2
  have hkey : p2.1 ∈ l.map (fun y => y.1) := by
    rw [← hashPairs_map_fst l ids w.len_eq]
    exact List.mem_map_of_mem Prod.fst hmem
  obtain ⟨y, hy, hyx⟩ := List.mem_map.mp hkey
  exact hk y hy (hyx.trans hcon)

theorem prepend_eq_empty {T : Type} {c : Cache T} {k : String} {v : T} {t : Nat}
    (hh : c.head = none) (hkeys : ∀ p2 ∈ c.hash, ¬ p2.1 = k) :
    prepend c k v t =
      ({ c with
          nodes := c.nodes ++
            [{ key := k, value := v, ttl := t, prev := none, next := none }],
          hash := c.hash ++ [(k, c.nodes.length)],
          head := some c.nodes.length, tail := some c.nodes.length },
        c.nodes.length) := by
  simp only [prepend, hashSet_fresh hkeys, hh]

theorem prepend_eq_cons {T : Type} {c : Cache T} {k : String} {v : T} {t : Nat}
    {a : Nat} (hh : c.head = some a)
    (hkeys : ∀ p2 ∈ c.hash, ¬ p2.1 = k) :
    prepend c k v t =
      ({ (({ c with
            nodes := c.nodes ++
              [{ key := k, value := v, ttl := t, prev := none, next := none }],
            hash := c.hash ++ [(k, c.nodes.length)] } : Cache T).modifyNode
              c.nodes.length
              (fun m => { m with next := some a })).modifyNode a
              (fun m => { m with prev := some c.nodes.length }) with
          head := some c.nodes.length },
        c.nodes.length) := by
  simp only [prepend, hashSet_fresh hkeys, hh]

theorem entryAt_modify_next {T : Type} {c : Cache T} {j : Nat} {x : Option Nat}
    (i : Nat) :
    entryAt (c.modifyNode j (fun m => { m with next := x })).nodes i =
      entryAt c.nodes i := by
  apply entryAt_modifyNode
  exact fun n => ⟨rfl, rfl, rfl⟩

theorem entryAt_modify_prev {T : Type} {c : Cache T} {j : Nat} {x : Option Nat}
    (i : Nat) :
    entryAt (c.modifyNode j (fun m => { m with prev := x })).nodes i =
      entryAt c.nodes i := by
  apply entryAt_modifyNode
  exact fun n => ⟨rfl, rfl, rfl⟩

theorem prepend_wfl {T : Type} {c : Cache T} {ids : List Nat} {l : List (Entry T)}
    (w : WFL c ids l) (k : String) (v : T) (t : Nat)
    (hk : ∀ x ∈ l, ¬ x.1 = k) :
    WFL (prepend c k v t).1 (c.nodes.length :: ids) ((k, v, t) :: l) ∧
    (prepend c k v t).2 = c.nodes.length ∧
    (prepend c k v t).1.capacity = c.capacity ∧
    (prepend c k v t).1.hitCount = c.hitCount ∧
    (prepend c k v t).1.missCount = c.missCount ∧
    (prepend c k v t).1.evictionCount = c.evictionCount ∧
    (prepend c k v t).1.nodes.length = c.nodes.length + 1 := by
  have hkeys := wfl_hash_fresh w hk
  have hlt := wfl_ids_lt w
  have hknotin : ¬ k ∈ l.map (fun x => x.1) := by
    intro hmem
    obtain ⟨y, hy, hyk⟩ := List.mem_map.mp hmem
    exact hk y hy hyk
  cases ids with
  | nil =>
    have hl : l = [] := List.forall₂_nil_left_iff.mp w.entries
    subst hl
    have hh : c.head = none := w.head_eq
    rw [prepend_eq_empty hh hkeys]
    have hchash : c.hash = [] := w.hash_perm.eq_nil
    refine ⟨⟨?_, rfl, rfl, List.nodup_singleton _, ?_, ?_, by simp⟩,
      rfl, rfl, rfl, rfl, rfl, by simp⟩
    · exact ⟨⟨{ key := k, value := v, ttl := t, prev := none, next := none },
        List.getElem?_concat_length _ _, rfl, rfl⟩, trivial⟩
    · refine List.Forall₂.cons ?_ List.Forall₂.nil
      unfold entryAt
      rw [List.getElem?_concat_length]
      rfl
    · show (c.hash ++ [(k, c.nodes.length)]).Perm _
      rw [hchash]
      exact List.Perm.refl _
  | cons a as =>
    obtain ⟨e0, l', hae, hrest, hl⟩ := List.forall₂_cons_left_iff.mp w.entries
    subst hl
    have hh : c.head = some a := w.head_eq
    rw [prepend_eq_cons hh hkeys]
    have halt : a < c.nodes.length := hlt a (List.mem_cons_self a as)
    have hane : a ≠ c.nodes.length := Nat.ne_of_lt halt
    have hc1node : ({ c with
        nodes := c.nodes ++
          [{ key := k, value := v, ttl := t, prev := none, next := none }],
        hash := c.hash ++ [(k, c.nodes.length)] } : Cache T).nodes[c.nodes.length]? =
        some { key := k, value := v, ttl := t, prev := none, next := none } :=
      List.getElem?_concat_length _ _
    have hSid : ((({ c with
        nodes := c.nodes ++
          [{ key := k, value := v, ttl := t, prev := none, next := none }],
        hash := c.hash ++ [(k, c.nodes.length)] } : Cache T).modifyNode
          c.nodes.length (fun m => { m with next := some a })).modifyNode a
          (fun m => { m with prev := some c.nodes.length })).nodes[c.nodes.length]? =
        some { key := k, value := v, ttl := t, prev := none, next := some a } := by
      rw [modifyNode_getElem_ne (Ne.symm hane), modifyNode_getElem_self hc1node]
    refine ⟨⟨?_, rfl, ?_, ?_, ?_, ?_, ?_⟩, rfl, ?_, ?_, ?_, ?_, ?_⟩
    · -- chain
      refine ⟨⟨{ key := k, value := v, ttl := t, prev := none, next := some a },
        hSid, rfl, rfl⟩, ?_⟩
      refine segT_reprev_head ?_ ?_ w.chain
      · intro b hb
        have hba : b ≠ a := by
          intro hcon
          have := w.nodup
          rw [List.nodup_cons] at this
          exact this.1 (hcon ▸ hb)
        have hbid : b ≠ c.nodes.length :=
          Nat.ne_of_lt (hlt b (List.mem_cons_of_mem a hb))
        rw [modifyNode_getElem_ne hba, modifyNode_getElem_ne hbid]
        show (c.nodes ++
          [({ key := k, value := v, ttl := t, prev := none, next := none } : Node T)])[b]? =
          c.nodes[b]?
        rw [List.getElem?_append_left (hlt b (List.mem_cons_of_mem a hb))]
      · intro n hn
        have h8 : (({ c with
            nodes := c.nodes ++
              [{ key := k, value := v, ttl := t, prev := none, next := none }],
            hash := c.hash ++ [(k, c.nodes.length)] } : Cache T).modifyNode
              c.nodes.length (fun m => { m with next := some a })).nodes[a]? =
            some n := by
          rw [modifyNode_getElem_ne hane]
          show (c.nodes ++
            [({ key := k, value := v, ttl := t, prev := none, next := none } : Node T)])[a]? =
            some n
          rw [List.getElem?_append_left halt]
          exact hn
        rw [modifyNode_getElem_self h8]
    · -- tail
      show _ = (c.nodes.length :: a :: as).getLast?
      rw [List.getLast?_cons_cons]
      exact modifyNode_tail.trans (modifyNode_tail.trans w.tail_eq)
    · -- nodup
      refine List.nodup_cons.mpr ⟨?_, w.nodup⟩
      intro hmem
      exact Nat.lt_irrefl _ (hlt _ hmem)
    · -- entries
      refine List.Forall₂.cons ?_ ?_
      · unfold entryAt
        rw [hSid]
        rfl
      · refine forall₂_congr_left ?_ w.entries
        intro b hb e2 he2
        rw [entryAt_modify_prev b, entryAt_modify_next b]
        show entryAt (c.nodes ++
          [({ key := k, value := v, ttl := t, prev := none, next := none } : Node T)]) b =
          some e2
        rw [entryAt_append_left (hlt b hb)]
        exact he2
    · -- hash
      have hs : ((({ c with
          nodes := c.nodes ++
            [{ key := k, value := v, ttl := t, prev := none, next := none }],
          hash := c.hash ++ [(k, c.nodes.length)] } : Cache T).modifyNode
            c.nodes.length (fun m => { m with next := some a })).modifyNode a
            (fun m => { m with prev := some c.nodes.length })).hash =
          c.hash ++ [(k, c.nodes.length)] :=
        modifyNode_hash.trans modifyNode_hash
      show ((({ c with
          nodes := c.nodes ++
            [{ key := k, value := v, ttl := t, prev := none, next := none }],
          hash := c.hash ++ [(k, c.nodes.length)] } : Cache T).modifyNode
            c.nodes.length (fun m => { m with next := some a })).modifyNode a
            (fun m => { m with prev := some c.nodes.length })).hash.Perm _
      rw [hs]
      exact (List.perm_append_singleton _ _).trans (w.hash_perm.cons _)
    · -- keys
      exact List.nodup_cons.mpr ⟨hknotin, w.keys_nodup⟩
    · exact modifyNode_capacity.trans modifyNode_capacity
    · exact modifyNode_hit.trans modifyNode_hit
    · exact modifyNode_miss.trans modifyNode_miss
    · exact modifyNode_evictions.trans modifyNode_evictions
    · rw [modifyNode_length, modifyNode_length]
      show (c.nodes ++
        [({ key := k, value := v, ttl := t, prev := none, next := none } : Node T)]).length = _
      simp

/-! ## `pop` -/

theorem pop_eq_single {T : Type} {c : Cache T} {tl : Nat} {n : Node T}
    (hts : c.tail = some tl) (hn : c.nodes[tl]? = some n) (hp : n.prev = none) :
    pop c = (({ c with head := none, tail := none } : Cache T).modifyNode tl
      (fun m => { m with prev := none }), some tl) := by
  simp only [pop, hts, hn, Option.some_bind, hp]

theorem pop_eq_multi {T : Type} {c : Cache T} {tl pp : Nat} {n : Node T}
    (hts : c.tail = some tl) (hn : c.nodes[tl]? = some n) (hp : n.prev = some pp) :
    pop c = (({ c.modifyNode pp (fun m => { m with next := none }) with
      tail := some pp } : Cache T).modifyNode tl
      (fun m => { m with prev := none }), some tl) := by
  simp only [pop, hts, hn, Option.some_bind, hp]

/-- `pop` on a well-formed cache detaches exactly the tail node; the index is
untouched (the caller deletes the key afterwards), every node keeps its
payload, and the remaining chain is the old chain without its last node. -/
theorem pop_wfl {T : Type} {c : Cache T} {ids' : List Nat} {tl : Nat}
    {l' : List (Entry T)} {e : Entry T}
    (w : WFL c (ids' ++ [tl]) (l' ++ [e])) :
    (pop c).2 = some tl ∧
    (pop c).1.hash = c.hash ∧
    (pop c).1.capacity = c.capacity ∧
    (pop c).1.hitCount = c.hitCount ∧
    (pop c).1.missCount = c.missCount ∧
    (pop c).1.evictionCount = c.evictionCount ∧
    (pop c).1.nodes.length = c.nodes.length ∧
    segT (pop c).1.nodes none ids' none ∧
    (pop c).1.head = ids'.head? ∧
    (pop c).1.tail = ids'.getLast? ∧
    (∀ a, entryAt (pop c).1.nodes a = entryAt c.nodes a) := by
  have hch := w.chain
  rw [segT_append] at hch
  obtain ⟨hch1, hch2⟩ := hch
  obtain ⟨⟨n0, hn0, hprev0, hnext0⟩, _⟩ := hch2
  have hts : c.tail = some tl := by
    rw [w.tail_eq]
    simp
  have hnd2 := w.nodup
  rw [List.nodup_append] at hnd2
  obtain ⟨ndi, _, hdisj⟩ := hnd2
  have htl_notin : tl ∉ ids' := fun hmem =>
    hdisj hmem (List.mem_singleton.mpr rfl)
  rcases List.eq_nil_or_concat ids' with hids | ⟨init, pp, hids⟩
  · subst hids
    have hp2 : n0.prev = none := hprev0
    rw [pop_eq_single hts hn0 hp2]
    exact ⟨rfl, modifyNode_hash, modifyNode_capacity, modifyNode_hit,
      modifyNode_miss, modifyNode_evictions, modifyNode_length, trivial,
      modifyNode_head, modifyNode_tail,
      fun a => entryAt_modify_prev a⟩
  · rw [List.concat_eq_append] at hids
    subst hids
    have hp2 : n0.prev = some pp := hprev0.trans lastOr_concat
    have hppmem : pp ∈ init ++ [pp] :=
      List.mem_append_right init (List.mem_singleton.mpr rfl)
    have hpptl : pp ≠ tl := fun hcon => htl_notin (hcon ▸ hppmem)
    rw [pop_eq_multi hts hn0 hp2]
    refine ⟨rfl, modifyNode_hash.trans modifyNode_hash,
      modifyNode_capacity.trans modifyNode_capacity,
      modifyNode_hit.trans modifyNode_hit,
      modifyNode_miss.trans modifyNode_miss,
      modifyNode_evictions.trans modifyNode_evictions,
      modifyNode_length.trans modifyNode_length, ?_, ?_, ?_, ?_⟩
    · -- the chain loses its last node
      refine segT_retarget_last
        (show (init ++ [pp]).getLast? = some pp by simp) ndi ?_ ?_ hch1
      · intro a ha hap
        have hatl : a ≠ tl := fun hcon => htl_notin (hcon ▸ ha)
        rw [modifyNode_getElem_ne hatl]
        show (c.modifyNode pp (fun m => { m with next := none })).nodes[a]? =
          c.nodes[a]?
        exact modifyNode_getElem_ne hap
      · intro n hn
        rw [modifyNode_getElem_ne hpptl]
        show (c.modifyNode pp (fun m => { m with next := none })).nodes[pp]? =
          some { n with next := none }
        rw [modifyNode_getElem_self hn]
    · rw [modifyNode_head]
      show (c.modifyNode pp (fun m => { m with next := none })).head = _
      rw [modifyNode_head, w.head_eq,
        List.head?_append_of_ne_nil (init ++ [pp]) (by simp)]
    · rw [modifyNode_tail]
      show some pp = (init ++ [pp]).getLast?
      simp
    · intro a
      exact (entryAt_modify_prev a).trans (entryAt_modify_next a)

/-! ## `put` -/

/-- The part of `put` after the optional eviction of the existing binding
(everything from `this.prepend(...)` on); `put` is definitionally the
branch on `hash.get` followed by this. -/
def putTail {T : Type} (c1 : Cache T) (k : String) (v : T) (tt : Nat) : Cache T :=
  let pr := prepend c1 k v tt
  let c2 := pr.1
  let c3 := { c2 with hash := hashSet c2.hash k pr.2 }
  if c3.hash.length > c3.capacity then
    let po := pop c3
    match po.2 with
    | some tl =>
      let tkey := match po.1.nodes[tl]? with
        | some n => n.key
        | none => ""
      { po.1 with hash := hashDelete po.1.hash tkey,
                  evictionCount := po.1.evictionCount + 1 }
    | none => po.1
  else c3

theorem put_eq_putTail {T : Type} (c : Cache T) (k : String) (v : T)
    (t now : Nat) :
    put c k v t now = (match hashGet c.hash k with
      | some id => putTail (evict c id) k v (now + t)
      | none => putTail c k v (now + t)) := by
  unfold put putTail
  cases hashGet c.hash k <;> rfl

theorem eraseKeyE_of_fresh {T : Type} {l : List (Entry T)} {k : String}
    (hk : ∀ x ∈ l, ¬ x.1 = k) : eraseKeyE l k = l := by
  apply List.filter_eq_self.mpr
  intro x hx
  have h9 : (x.1 == k) = false := beq_eq_false_iff_ne.mpr (hk x hx)
  rw [h9]
  rfl

theorem eraseKeyE_split {T : Type} {l₁ l₂ : List (Entry T)} {e : Entry T}
    (nd : ((l₁ ++ e :: l₂).map (fun x => x.1)).Nodup) :
    eraseKeyE (l₁ ++ e :: l₂) e.1 = l₁ ++ l₂ := by
  obtain ⟨hk1, hk2, _⟩ := keys_nodup_split nd
  unfold eraseKeyE
  rw [List.filter_append, List.filter_cons]
  have hself : (!(e.1 == e.1)) = false := by simp
  rw [hself]
  simp only [Bool.false_eq_true, if_false]
  rw [show l₁.filter (fun x => !(x.1 == e.1)) = l₁ from
      List.filter_eq_self.mpr (fun x hx => by
        rw [beq_eq_false_iff_ne.mpr (hk1 x hx)]; rfl),
    show l₂.filter (fun x => !(x.1 == e.1)) = l₂ from
      List.filter_eq_self.mpr (fun x hx => by
        rw [beq_eq_false_iff_ne.mpr (hk2 x hx)]; rfl)]

/-- Behaviour of `put`'s tail on a state where `k` is no longer bound. -/
theorem putTail_wfl {T : Type} {c1 : Cache T} {ids1 : List Nat}
    {l1 : List (Entry T)} (w1 : WFL c1 ids1 l1) (k : String) (v : T) (tt : Nat)
    (hk : ∀ x ∈ l1, ¬ x.1 = k) :
    Models (putTail c1 k v tt)
      (if ((k, v, tt) :: l1).length > c1.capacity
        then ((k, v, tt) :: l1).dropLast else (k, v, tt) :: l1) ∧
    (putTail c1 k v tt).capacity = c1.capacity ∧
    (putTail c1 k v tt).hitCount = c1.hitCount ∧
    (putTail c1 k v tt).missCount = c1.missCount ∧
    (putTail c1 k v tt).evictionCount = c1.evictionCount +
      (if ((k, v, tt) :: l1).length > c1.capacity then 1 else 0) := by
  obtain ⟨W2, hpr2, hcap2, hhit2, hmiss2, hev2, _⟩ := prepend_wfl w1 k v tt hk
  have hmem : (k, (prepend c1 k v tt).2) ∈ (prepend c1 k v tt).1.hash := by
    rw [hpr2]
    exact W2.hash_perm.mem_iff.mpr (List.mem_cons_self _ _)
  have hset : hashSet (prepend c1 k v tt).1.hash k (prepend c1 k v tt).2 =
      (prepend c1 k v tt).1.hash :=
    hashSet_existing_self W2.hash_keys_nodup hmem
  have hc3 : ({ capacity := (prepend c1 k v tt).1.capacity,
                nodes := (prepend c1 k v tt).1.nodes,
                hash := hashSet (prepend c1 k v tt).1.hash k (prepend c1 k v tt).2,
                head := (prepend c1 k v tt).1.head,
                tail := (prepend c1 k v tt).1.tail,
                hitCount := (prepend c1 k v tt).1.hitCount,
                missCount := (prepend c1 k v tt).1.missCount,
                evictionCount := (prepend c1 k v tt).1.evictionCount } : Cache T) =
      (prepend c1 k v tt).1 := by
    rw [hset]
  have hhlen : (prepend c1 k v tt).1.hash.length = ((k, v, tt) :: l1).length :=
    W2.hash_len
  show Models (putTail c1 k v tt) _ ∧ _
  simp only [putTail]
  rw [hc3, hset, hhlen, hcap2]
  by_cases hcond : ((k, v, tt) :: l1).length > c1.capacity
  · rw [if_pos hcond, if_pos hcond, if_pos hcond]
    rcases List.eq_nil_or_concat (c1.nodes.length :: ids1) with h0 | ⟨init, tl, hids⟩
    · exact absurd h0 (List.cons_ne_nil _ _)
    rcases List.eq_nil_or_concat ((k, v, tt) :: l1) with h1 | ⟨linit, el, hlds⟩
    · exact absurd h1 (List.cons_ne_nil _ _)
    rw [List.concat_eq_append] at hids hlds
    rw [hids, hlds] at W2
    obtain ⟨hpop2, hphash, hpcap, hphit, hpmiss, hpev, _, hpseg, hphead,
      hptail, hpentry⟩ := pop_wfl W2
    simp only [hpop2]
    have hentl : entryAt (pop (prepend c1 k v tt).1).1.nodes tl = some el := by
      rw [hpentry tl]
      have hlen9 : init.length = linit.length := by
        have h8 := W2.len_eq
        rw [List.length_append, List.length_append] at h8
        simpa using h8.symm
      exact (forall₂_append_cons init linit tl el [] []
        (by rw [hlen9]) W2.entries).2.1
    obtain ⟨n9, hn9, hn9e⟩ := Option.map_eq_some'.mp hentl
    simp only [hn9]
    have hkey9 : n9.key = el.1 := by
      rw [← hn9e]
    have hnd9 := W2.nodup
    rw [List.nodup_append] at hnd9
    have hknd9 := W2.keys_nodup
    obtain ⟨hkk1, _, hkk3⟩ := keys_nodup_split hknd9
    refine ⟨⟨init, ?_, ?_, ?_, hnd9.1, ?_, ?_, ?_⟩, ?_, ?_, ?_, ?_⟩
    · exact hpseg
    · exact hphead
    · exact hptail
    · show List.Forall₂ _ init (((k, v, tt) :: l1).dropLast)
      rw [hlds, List.dropLast_concat]
      refine ((forall₂_append_cons init linit tl el [] [] ?_ W2.entries).1).imp ?_
      · have h8 := W2.len_eq
        rw [List.length_append, List.length_append] at h8
        simpa using h8.symm
      · intro a b hab
        show entryAt (pop (prepend c1 k v tt).1).1.nodes a = some b
        rw [hpentry a]
        exact hab
    · show (hashDelete (pop (prepend c1 k v tt).1).1.hash n9.key).Perm
        (hashPairs (((k, v, tt) :: l1).dropLast) init)
      rw [hlds, List.dropLast_concat, hkey9, hphash]
      have h5 := W2.hash_perm.filter (fun p => !(p.1 == el.1))
      have hlen9 : linit.length = init.length := by
        have h8 := W2.len_eq
        rw [List.length_append, List.length_append] at h8
        simpa using h8
      have h6 : (hashPairs (linit ++ el :: []) (init ++ tl :: [])).filter
          (fun p => !(p.1 == el.1)) = hashPairs (linit ++ []) (init ++ []) :=
        hashDelete_pairs hlen9 rfl hkk1 (fun x hx => absurd hx (List.not_mem_nil x))
      rw [List.append_nil, List.append_nil] at h6
      show ((prepend c1 k v tt).1.hash.filter (fun p => !(p.1 == el.1))).Perm _
      rw [← h6]
      exact h5
    · show ((((k, v, tt) :: l1).dropLast).map (fun e => e.1)).Nodup
      rw [hlds, List.dropLast_concat]
      simpa using hkk3
    · exact hpcap.trans hcap2
    · exact hphit.trans hhit2
    · exact hpmiss.trans hmiss2
    · rw [hpev, hev2]
  · rw [if_neg hcond, if_neg hcond, if_neg hcond]
    exact ⟨⟨_, W2⟩, hcap2, hhit2, hmiss2, by rw [hev2, Nat.add_zero]⟩

/-- `put` refines the abstract `putA`, preserves the hit and miss counters,
and bumps the eviction counter exactly when the cache overflows. -/
theorem put_wfl {T : Type} {c : Cache T} {ids : List Nat} {l : List (Entry T)}
    (w : WFL c ids l) (k : String) (v : T) (t now : Nat) :
    Models (put c k v t now) (putA c.capacity l k v (now + t)) ∧
    (put c k v t now).capacity = c.capacity ∧
    (put c k v t now).hitCount = c.hitCount ∧
    (put c k v t now).missCount = c.missCount ∧
    (put c k v t now).evictionCount = c.evictionCount +
      (if ((k, v, now + t) :: eraseKeyE l k).length > c.capacity
        then 1 else 0) := by
  rw [put_eq_putTail]
  cases he : lookupE l k with
  | none =>
    have hg : hashGet c.hash k = none := wfl_lookup_none w he
    simp only [hg]
    have hfresh : ∀ x ∈ l, ¬ x.1 = k := lookupE_eq_none.mp he
    have herase : eraseKeyE l k = l := eraseKeyE_of_fresh hfresh
    obtain ⟨hM, hcap, hhit, hmiss, hev⟩ := putTail_wfl w k v (now + t) hfresh
    refine ⟨?_, hcap, hhit, hmiss, ?_⟩
    · show Models _ (putA c.capacity l k v (now + t))
      simp only [putA]
      rw [herase]
      exact hM
    · rw [herase, hev]
  | some e =>
    obtain ⟨l₁, l₂, ids₁, i, ids₂, hl, hids, hlen, hg, _, hek⟩ :=
      wfl_lookup_some w he
    simp only [hg]
    subst hl
    subst hids
    obtain ⟨W1, _, hcap1, _, hhit1, hmiss1, hev1, _⟩ := evict_wfl w hlen
    obtain ⟨hk1, hk2, _⟩ := keys_nodup_split w.keys_nodup
    have hfresh : ∀ x ∈ l₁ ++ l₂, ¬ x.1 = k := by
      intro x hx
      rw [← hek]
      rcases List.mem_append.mp hx with h | h
      · exact hk1 x h
      · exact hk2 x h
    have herase : eraseKeyE (l₁ ++ e :: l₂) k = l₁ ++ l₂ := by
      rw [← hek]
      exact eraseKeyE_split w.keys_nodup
    obtain ⟨hM, hcap, hhit, hmiss, hev⟩ := putTail_wfl W1 k v (now + t) hfresh
    refine ⟨?_, hcap.trans hcap1, hhit.trans hhit1, hmiss.trans hmiss1, ?_⟩
    · show Models _ (putA c.capacity (l₁ ++ e :: l₂) k v (now + t))
      simp only [putA]
      rw [herase, ← hcap1]
      exact hM
    · rw [herase, hev, hev1, hcap1]

/-! ## `get` -/

/-- `get` on an unbound key: only the miss counter moves. -/
theorem get_miss_eq {T : Type} {c : Cache T} {ids : List Nat}
    {l : List (Entry T)} (w : WFL c ids l) {k : String} (now : Nat)
    (he : lookupE l k = none) :
    get c k now = ({ c with missCount := c.missCount + 1 }, none) := by
  have hg := wfl_lookup_none w he
  simp only [get, hg]

/-- `get` on an expired binding: only the miss counter moves; the node is
not unlinked and the key stays in the hash. -/
theorem get_expired_eq {T : Type} {c : Cache T} {ids : List Nat}
    {l : List (Entry T)} (w : WFL c ids l) {k : String} {e : Entry T}
    (now : Nat) (he : lookupE l k = some e) (hexp : e.2.2 < now) :
    get c k now = ({ c with missCount := c.missCount + 1 }, none) := by
  obtain ⟨l₁, l₂, ids₁, i, ids₂, hl, hids, hlen, hg, hent, hek⟩ :=
    wfl_lookup_some w he
  obtain ⟨n, hn, hne⟩ := Option.map_eq_some'.mp hent
  have hnttl : n.ttl < now := by
    rw [show n.ttl = e.2.2 from by rw [← hne]]
    exact hexp
  simp only [get, hg, hn]
  rw [if_pos hnttl]

/-- `get` on a live binding: the entry moves to the front with its fields
unchanged, the stored value is returned, and only the hit counter moves. -/
theorem get_hit {T : Type} {c : Cache T} {ids : List Nat}
    {l : List (Entry T)} (w : WFL c ids l) {k : String} {e : Entry T}
    (now : Nat) (he : lookupE l k = some e) (hlive : ¬ e.2.2 < now) :
    Models (get c k now).1 (e :: eraseKeyE l k) ∧
    (get c k now).2 = some e.2.1 ∧
    (get c k now).1.hitCount = c.hitCount + 1 ∧
    (get c k now).1.missCount = c.missCount ∧
    (get c k now).1.evictionCount = c.evictionCount ∧
    (get c k now).1.capacity = c.capacity := by
  obtain ⟨l₁, l₂, ids₁, i, ids₂, hl, hids, hlen, hg, hent, hek⟩ :=
    wfl_lookup_some w he
  subst hl
  subst hids
  obtain ⟨n, hn, hne⟩ := Option.map_eq_some'.mp hent
  have hnttl : ¬ n.ttl < now := by
    rw [show n.ttl = e.2.2 from by rw [← hne]]
    exact hlive
  obtain ⟨W1, hent1, hcap1, _, hhit1, hmiss1, hev1, _⟩ := evict_wfl w hlen
  obtain ⟨n1, hn1, hn1e⟩ := Option.map_eq_some'.mp hent1
  obtain ⟨hk1, hk2, _⟩ := keys_nodup_split w.keys_nodup
  have hkey : n1.key = e.1 := by
    rw [← hn1e]
  have hfresh : ∀ x ∈ l₁ ++ l₂, ¬ x.1 = n1.key := by
    rw [hkey]
    intro x hx
    rcases List.mem_append.mp hx with h | h
    · exact hk1 x h
    · exact hk2 x h
  obtain ⟨W2, _, hcap2, hhit2, hmiss2, hev2, _⟩ :=
    prepend_wfl W1 n1.key n1.value n1.ttl hfresh
  have herase : eraseKeyE (l₁ ++ e :: l₂) k = l₁ ++ l₂ := by
    rw [← hek]
    exact eraseKeyE_split w.keys_nodup
  have htrip : (n1.key, n1.value, n1.ttl) = e := hn1e
  rw [htrip] at W2
  simp only [get, hg, hn, hn1, Option.getD_some]
  rw [if_neg hnttl]
  refine ⟨?_, ?_, ?_, ?_, ?_, ?_⟩
  · rw [herase]
    exact ⟨_, W2.chain, W2.head_eq, W2.tail_eq, W2.nodup, W2.entries,
      W2.hash_perm, W2.keys_nodup⟩
  · show some n1.value = some e.2.1
    rw [← htrip]
  · show (prepend (evict c i) n1.key n1.value n1.ttl).1.hitCount + 1 =
      c.hitCount + 1
    rw [hhit2, hhit1]
  · exact hmiss2.trans hmiss1
  · exact hev2.trans hev1
  · exact hcap2.trans hcap1

/-! ## Construction, `clear`, `getOption` -/

/-- A freshly constructed cache is well formed and empty. -/
theorem mkCache_wfl (T : Type) (cap : Nat) : WFL (mkCache T cap) [] [] :=
  ⟨trivial, rfl, rfl, List.nodup_nil, List.Forall₂.nil, List.Perm.nil,
    List.nodup_nil⟩

/-- `clear` empties the index, unsets both list ends and zeroes the three
counters; the result is a well-formed empty cache. -/
theorem clear_wfl {T : Type} (c : Cache T) :
    WFL (clear c) [] [] ∧ (clear c).hash = [] ∧ (clear c).head = none ∧
    (clear c).tail = none ∧ (clear c).hitCount = 0 ∧
    (clear c).missCount = 0 ∧ (clear c).evictionCount = 0 :=
  ⟨⟨trivial, rfl, rfl, List.nodup_nil, List.Forall₂.nil, List.Perm.nil,
    List.nodup_nil⟩, rfl, rfl, rfl, rfl, rfl, rfl⟩

/-- `getOption` is `get` with the result wrapped: the two bodies are
identical, so the full results coincide. -/
theorem getOption_eq {T : Type} (c : Cache T) (k : String) (now : Nat) :
    getOption c k now = get c k now := rfl

/-! ## Walks and the index ↔ list bijection -/

theorem wfl_ids_len_le {T : Type} {c : Cache T} {ids : List Nat}
    {l : List (Entry T)} (w : WFL c ids l) : ids.length ≤ c.nodes.length := by
  have h1 : ids.toFinset.card = ids.length := List.toFinset_card_of_nodup w.nodup
  have h2 : ids.toFinset ⊆ Finset.range c.nodes.length := by
    intro b hb
    rw [Finset.mem_range]
    exact wfl_ids_lt w b (List.mem_toFinset.mp hb)
  have h3 := Finset.card_le_card h2
  rw [Finset.card_range] at h3
  omega

/-- On a well-formed cache the bounded `next` walk from `head` visits
exactly the chain. -/
theorem wfl_walkFwd {T : Type} {c : Cache T} {ids : List Nat}
    {l : List (Entry T)} (w : WFL c ids l) : walkFwd c = ids := by
  unfold walkFwd
  rw [w.head_eq, ← headOr_none_eq_head?]
  exact walkNextAux_eq w.chain (le_trans (wfl_ids_len_le w) (Nat.le_succ _))

/-- On a well-formed cache the bounded `prev` walk from `tail` visits
exactly the chain, reversed. -/
theorem wfl_walkBwd {T : Type} {c : Cache T} {ids : List Nat}
    {l : List (Entry T)} (w : WFL c ids l) : walkBwd c = ids.reverse := by
  unfold walkBwd
  rw [w.tail_eq]
  exact walkPrevAux_eq w.chain (le_trans (wfl_ids_len_le w) (Nat.le_succ _))

theorem forall₂_split_left {α β : Type} {R : α → β → Prop} :
    ∀ (as : List α) (a : α) (as' : List α) {bs : List β},
      List.Forall₂ R (as ++ a :: as') bs →
      ∃ bs₁ b bs₂, bs = bs₁ ++ b :: bs₂ ∧ bs₁.length = as.length ∧ R a b
  | [], a, as', bs, h => by
    rcases List.forall₂_cons_left_iff.mp h with ⟨b, bs₂, hab, htail, rfl⟩
    exact ⟨[], b, bs₂, rfl, rfl, hab⟩
  | x :: xs, a, as', bs, h => by
    rcases List.forall₂_cons_left_iff.mp h with ⟨b0, bs', hx, htail, rfl⟩
    obtain ⟨bs₁, b, bs₂, heq, hlen, hab⟩ := forall₂_split_left xs a as' htail
    exact ⟨b0 :: bs₁, b, bs₂, by rw [heq]; rfl, by simp [hlen], hab⟩

theorem hashGet_split :
    ∀ (p₁ : List (String × Nat)) {p₂ : List (String × Nat)} {k : String}
      {i : Nat}, (∀ q ∈ p₁, ¬ q.1 = k) → hashGet (p₁ ++ (k, i) :: p₂) k = some i
  | [], _, _, _, _ => hashGet_cons_pos (by simp)
  | q :: qs, p₂, k, i, hk => by
    rw [List.cons_append,
      hashGet_cons_neg (beq_eq_false_iff_ne.mpr (hk q (List.mem_cons_self q qs)))]
    exact hashGet_split qs (fun y hy => hk y (List.mem_cons_of_mem q hy))

/-- Every chained index carries an entry whose key the hash maps back to
that same index (the list → index half of the bijection). -/
theorem wfl_mem_ids {T : Type} {c : Cache T} {ids : List Nat}
    {l : List (Entry T)} (w : WFL c ids l) {i : Nat} (hi : i ∈ ids) :
    ∃ e, entryAt c.nodes i = some e ∧ hashGet c.hash e.1 = some i := by
  obtain ⟨ids₁, ids₂, hids⟩ := List.append_of_mem hi
  subst hids
  obtain ⟨l₁, e, l₂, hl, hlen, hR⟩ := forall₂_split_left ids₁ i ids₂ w.entries
  refine ⟨e, hR, ?_⟩
  have hknd := w.keys_nodup
  rw [hl] at hknd
  obtain ⟨hk1, _, _⟩ := keys_nodup_split hknd
  rw [w.hashGet_pairs, hl, hashPairs_append hlen]
  show hashGet (hashPairs l₁ ids₁ ++ (e.1, i) :: hashPairs l₂ ids₂) e.1 = some i
  apply hashGet_split
  intro q hq
  have hq1 : q.1 ∈ (hashPairs l₁ ids₁).map Prod.fst := List.mem_map_of_mem _ hq
  rw [hashPairs_map_fst l₁ ids₁ hlen] at hq1
  obtain ⟨x, hx, hxq⟩ := List.mem_map.mp hq1
  rw [← hxq]
  exact hk1 x hx

/-- Abstract lookup of a member entry, under distinct keys. -/
theorem lookupE_of_mem {T : Type} {l : List (Entry T)} {e : Entry T}
    (nd : (l.map (fun x => x.1)).Nodup) (he : e ∈ l) :
    lookupE l e.1 = some e := by
  apply find?_eq_of_unique he (by simp)
  intro y hy hpy
  exact eq_of_proj_nodup (fun x => x.1) nd hy he (by simpa using hpy)

/-! ## Abstract `putA` facts -/

theorem eraseKeyE_keys {T : Type} (l : List (Entry T)) (k : String) :
    ∀ x ∈ eraseKeyE l k, ¬ x.1 = k := by
  intro x hx
  have h9 := List.of_mem_filter hx
  simpa using h9

theorem putA_cons_take {T : Type} {cap : Nat} {l : List (Entry T)} (k : String)
    (v : T) (exp : Nat) (hcap : 1 ≤ cap) (hle : (eraseKeyE l k).length ≤ cap) :
    putA cap l k v exp = (k, v, exp) :: (eraseKeyE l k).take (cap - 1) := by
  simp only [putA]
  by_cases hc : (eraseKeyE l k).length + 1 > cap
  · rw [if_pos (by simpa using hc)]
    have hlen : (eraseKeyE l k).length = cap := by omega
    rw [List.dropLast_eq_take]
    simp only [List.length_cons]
    rw [Nat.add_sub_cancel, hlen]
    obtain ⟨m, rfl⟩ : ∃ m, cap = m + 1 := ⟨cap - 1, by omega⟩
    rw [List.take_succ_cons]
    rfl
  · rw [if_neg (by simpa using hc)]
    rw [List.take_of_length_le (by omega)]

theorem putA_length_le {T : Type} {cap : Nat} {l : List (Entry T)} {k : String}
    {v : T} {exp : Nat} (hcap : 1 ≤ cap) (hle : l.length ≤ cap) :
    (putA cap l k v exp).length ≤ cap := by
  have her : (eraseKeyE l k).length ≤ cap :=
    le_trans (List.length_filter_le _ l) hle
  rw [putA_cons_take k v exp hcap her]
  simp only [List.length_cons]
  have h9 := List.length_take_le (cap - 1) (eraseKeyE l k)
  omega

theorem take_append_take {α : Type} (n : Nat) (A X : List α) :
    (A ++ X.take n).take n = (A ++ X).take n := by
  rw [List.take_append_eq_append_take, List.take_append_eq_append_take,
    List.take_take, Nat.min_eq_left (Nat.sub_le n A.length)]

/-- A run of fresh-key `put`s on a within-capacity cache: the final contents
are the new entries, most recent first, truncated to capacity. -/
theorem runPuts_wfl {T : Type} (now : Nat) :
    ∀ (ops : List (String × T × Nat)) (c : Cache T) (l : List (Entry T)),
      Models c l → l.length ≤ c.capacity → 1 ≤ c.capacity →
      ((ops.map (fun o => o.1)) ++ l.map (fun e => e.1)).Nodup →
      Models (runPuts c ops now)
        (((ops.map (fun o => (o.1, o.2.1, now + o.2.2))).reverse ++ l).take
          c.capacity) ∧
      (runPuts c ops now).capacity = c.capacity
  | [], c, l, hM, hle, hcap, hnd => by
    refine ⟨?_, rfl⟩
    simp only [List.map_nil, List.reverse_nil, List.nil_append]
    show Models c (l.take c.capacity)
    rw [List.take_of_length_le hle]
    exact hM
  | o :: rest, c, l, hM, hle, hcap, hnd => by
    obtain ⟨ids, w⟩ := hM
    have hnd0 : (o.1 :: ((rest.map (fun o => o.1)) ++
        l.map (fun e => e.1))).Nodup := by
      simpa using hnd
    rw [List.nodup_cons] at hnd0
    have hfresh : ∀ x ∈ l, ¬ x.1 = o.1 := by
      intro x hx he
      exact hnd0.1 (List.mem_append.mpr (Or.inr
        (he ▸ List.mem_map_of_mem _ hx)))
    have herase : eraseKeyE l o.1 = l := eraseKeyE_of_fresh hfresh
    obtain ⟨hM1, hcap1, _, _, _⟩ := put_wfl w o.1 o.2.1 o.2.2 now
    have hputA : putA c.capacity l o.1 o.2.1 (now + o.2.2) =
        ((o.1, o.2.1, now + o.2.2) :: l).take c.capacity := by
      rw [putA_cons_take o.1 o.2.1 _ hcap (by rw [herase]; exact hle), herase]
      obtain ⟨m, hm⟩ : ∃ m, c.capacity = m + 1 := ⟨c.capacity - 1, by omega⟩
      rw [hm, List.take_succ_cons]
      rfl
    rw [hputA] at hM1
    have hlen1 : (((o.1, o.2.1, now + o.2.2) :: l).take c.capacity).length ≤
        (put c o.1 o.2.1 o.2.2 now).capacity := by
      rw [hcap1]
      exact List.length_take_le _ _
    have hcap1' : 1 ≤ (put c o.1 o.2.1 o.2.2 now).capacity := by
      rw [hcap1]
      exact hcap
    have hsub9 : List.Sublist
        ((rest.map (fun o => o.1)) ++
          (((o.1, o.2.1, now + o.2.2) :: l).take c.capacity).map
            (fun e => e.1))
        ((rest.map (fun o => o.1)) ++ (o.1 :: l.map (fun e => e.1))) := by
      refine List.Sublist.append_left ?_ _
      have h1 := List.take_sublist c.capacity ((o.1, o.2.1, now + o.2.2) :: l)
      have h2 := h1.map (fun e => (e : Entry T).1)
      simpa using h2
    have hperm9 : ((rest.map (fun o => o.1)) ++
        (o.1 :: l.map (fun e => e.1))).Nodup :=
      (List.perm_middle.nodup_iff).mpr (by simpa using hnd)
    have hnd1 : ((rest.map (fun o => o.1)) ++
        (((o.1, o.2.1, now + o.2.2) :: l).take c.capacity).map
          (fun e => e.1)).Nodup := List.Nodup.sublist hsub9 hperm9
    obtain ⟨hMrest, hcaprest⟩ :=
      runPuts_wfl now rest (put c o.1 o.2.1 o.2.2 now) _ hM1 hlen1 hcap1' hnd1
    rw [hcap1] at hMrest
    rw [take_append_take] at hMrest
    constructor
    · show Models (runPuts (put c o.1 o.2.1 o.2.2 now) rest now) _
      simp only [List.map_cons, List.reverse_cons, List.append_assoc,
        List.cons_append, List.nil_append]
      exact hMrest
    · show (runPuts (put c o.1 o.2.1 o.2.2 now) rest now).capacity = c.capacity
      exact hcaprest.trans hcap1

/-- Every reachable cache state is well formed. -/
theorem reachable_models {T : Type} {c : Cache T} (h : Reachable c) :
    ∃ l, Models c l := by
  induction h with
  | init cap => exact ⟨[], [], mkCache_wfl T cap⟩
  | put k v t now _ ih =>
    obtain ⟨l, ids, w⟩ := ih
    exact ⟨_, (put_wfl w k v t now).1⟩
  | get k now _ ih =>
    obtain ⟨l, ids, w⟩ := ih
    cases he : lookupE l k with
    | none =>
      rw [get_miss_eq w now he]
      exact ⟨l, ids, w.chain, w.head_eq, w.tail_eq, w.nodup, w.entries,
        w.hash_perm, w.keys_nodup⟩
    | some e =>
      by_cases hexp : e.2.2 < now
      · rw [get_expired_eq w now he hexp]
        exact ⟨l, ids, w.chain, w.head_eq, w.tail_eq, w.nodup, w.entries,
          w.hash_perm, w.keys_nodup⟩
      · exact ⟨_, (get_hit w now he hexp).1⟩
  | getOpt k now _ ih =>
    obtain ⟨l, ids, w⟩ := ih
    rw [getOption_eq]
    cases he : lookupE l k with
    | none =>
      rw [get_miss_eq w now he]
      exact ⟨l, ids, w.chain, w.head_eq, w.tail_eq, w.nodup, w.entries,
        w.hash_perm, w.keys_nodup⟩
    | some e =>
      by_cases hexp : e.2.2 < now
      · rw [get_expired_eq w now he hexp]
        exact ⟨l, ids, w.chain, w.head_eq, w.tail_eq, w.nodup, w.entries,
          w.hash_perm, w.keys_nodup⟩
      · exact ⟨_, (get_hit w now he hexp).1⟩
  | clear _ ih => exact ⟨[], [], (clear_wfl _).1⟩

/-! ## The claims -/

/-- C1: for every capacity `N ≥ 1` and every sequence of `N + 1` `put` calls
with pairwise distinct keys (no intervening `get`), after the last `put` a
`get` of the first key is absent while every later key is still present: the
tail, least recently used, entry is the one evicted on overflow. -/
theorem C1_lru_eviction (N : Nat) (hN : 1 ≤ N) (k1 : String) (v1 t1 : Nat)
    (rest : List (String × Nat × Nat)) (hlen : rest.length = N) (now : Nat)
    (hnd : (((k1, v1, t1) :: rest).map (fun o => o.1)).Nodup) :
    (get (runPuts (mkCache Nat N) ((k1, v1, t1) :: rest) now) k1 now).2 =
      none ∧
    ∀ o ∈ rest,
      (get (runPuts (mkCache Nat N) ((k1, v1, t1) :: rest) now) o.1 now).2 =
        some o.2.1 := by
  have hM0 : Models (mkCache Nat N) [] := ⟨[], mkCache_wfl Nat N⟩
  obtain ⟨hMF, hcapF⟩ := runPuts_wfl now ((k1, v1, t1) :: rest)
    (mkCache Nat N) [] hM0 (by simp) hN (by simpa using hnd)
  have h9 : ((k1 :: rest.map (fun o => o.1)) : List String).Nodup := by
    simpa using hnd
  have hLF : (((((k1, v1, t1) :: rest).map
      (fun o => (o.1, o.2.1, now + o.2.2))).reverse ++
        ([] : List (Entry Nat))).take (mkCache Nat N).capacity) =
      (rest.map (fun o => (o.1, o.2.1, now + o.2.2))).reverse := by
    rw [List.append_nil, List.map_cons, List.reverse_cons]
    have hcapN : (mkCache Nat N).capacity =
        ((rest.map (fun o => (o.1, o.2.1, now + o.2.2))).reverse).length := by
      show N = _
      simp [hlen]
    rw [hcapN, List.take_left]
  rw [hLF] at hMF
  obtain ⟨idsF, wF⟩ := hMF
  constructor
  · have hnone : lookupE
        ((rest.map (fun o => (o.1, o.2.1, now + o.2.2))).reverse) k1 =
        none := by
      apply lookupE_eq_none.mpr
      intro x hx hx1
      have hx2 : x ∈ rest.map (fun o => (o.1, o.2.1, now + o.2.2)) :=
        List.mem_reverse.mp hx
      obtain ⟨o, ho, rfl⟩ := List.mem_map.mp hx2
      have hmem9 : k1 ∈ rest.map (fun o => o.1) :=
        hx1 ▸ List.mem_map_of_mem (fun o => o.1) ho
      exact (List.nodup_cons.mp h9).1 hmem9
    rw [get_miss_eq wF now hnone]
  · intro o ho
    have hmem : (o.1, o.2.1, now + o.2.2) ∈
        (rest.map (fun o => (o.1, o.2.1, now + o.2.2))).reverse := by
      rw [List.mem_reverse]
      exact List.mem_map_of_mem _ ho
    have hknd : (((rest.map (fun o => (o.1, o.2.1, now + o.2.2))).reverse).map
        (fun x => x.1)).Nodup := by
      rw [List.map_reverse, List.nodup_reverse, List.map_map]
      exact (List.nodup_cons.mp h9).2
    have hlook := lookupE_of_mem hknd hmem
    exact (get_hit wF now hlook (Nat.not_lt.mpr (Nat.le_add_right now o.2.2))).2.1

/-- C1 holds at capacity 1 with the two puts `("a", 1)`, `("b", 2)`:
afterwards `"a"` is absent and `"b"` is present. -/
theorem C1_lru_eviction_witness :
    1 ≤ 1 ∧ ([("b", 2, 20)] : List (String × Nat × Nat)).length = 1 ∧
    (((("a", 1, 10) : String × Nat × Nat) :: [("b", 2, 20)]).map
      (fun o => o.1)).Nodup ∧
    ((get (runPuts (mkCache Nat 1) (("a", 1, 10) :: [("b", 2, 20)]) 0)
        "a" 0).2 = none ∧
      ∀ o ∈ [(("b" : String), (2 : Nat), (20 : Nat))],
        (get (runPuts (mkCache Nat 1) (("a", 1, 10) :: [("b", 2, 20)]) 0)
          o.1 0).2 = some o.2.1) :=
  ⟨by decide, rfl, by decide,
    C1_lru_eviction 1 (by decide) "a" 1 10 [("b", 2, 20)] rfl 0 (by decide)⟩

/-- C2: a successful (non-expired) `get` moves the accessed entry to the head
of the recency list and returns its stored value; concretely, with capacity 3,
after `put a, put b, put c, get a`, a further `put d` evicts `b` and not `a`:
`get b` is then absent and `get a` present. -/
theorem C2_promotion (c : Cache Nat) (l : List (Entry Nat)) (k : String)
    (e : Entry Nat) (now : Nat) (hM : Models c l) (he : lookupE l k = some e)
    (hlive : ¬ e.2.2 < now) :
    Models (get c k now).1 (e :: eraseKeyE l k) ∧
    (get c k now).2 = some e.2.1 ∧
    (get ((put ((get (put (put (put (mkCache Nat 3) "a" 1 100 0) "b" 2 100 0)
      "c" 3 100 0) "a" 0).1) "d" 4 100 0)) "b" 0).2 = none ∧
    (get ((put ((get (put (put (put (mkCache Nat 3) "a" 1 100 0) "b" 2 100 0)
      "c" 3 100 0) "a" 0).1) "d" 4 100 0)) "a" 0).2 = some 1 := by
  obtain ⟨ids, w⟩ := hM
  have h := get_hit w now he hlive
  exact ⟨h.1, h.2.1, rfl, rfl⟩

/-- C2 holds on a one-entry cache: a live hit on `"a"` yields the stored 5. -/
theorem C2_promotion_witness :
    Models (put (mkCache Nat 3) "a" 5 100 0) [("a", 5, 100)] ∧
    lookupE ([("a", 5, 100)] : List (Entry Nat)) "a" = some ("a", 5, 100) ∧
    ¬ (100 : Nat) < 0 ∧
    (get (put (mkCache Nat 3) "a" 5 100 0) "a" 0).2 = some 5 := by
  have hM : Models (put (mkCache Nat 3) "a" 5 100 0) [("a", 5, 100)] :=
    (put_wfl (mkCache_wfl Nat 3) "a" 5 100 0).1
  exact ⟨hM, rfl, by decide,
    (C2_promotion (put (mkCache Nat 3) "a" 5 100 0) [("a", 5, 100)] "a"
      ("a", 5, 100) 0 hM rfl (by decide)).2.1⟩

/-- C3: starting from a fresh cache with capacity ≥ 1, after every prefix of
a distinct-key `put` sequence the index holds at most `capacity` entries; and
on any well-formed state a `put` that overflows drops exactly the last (tail)
entry of the recency list and increments the eviction counter by one, while a
non-overflowing `put` leaves the counter unchanged. -/
theorem C3_capacity_bound (cap : Nat) (hcap : 1 ≤ cap)
    (ops : List (String × Nat × Nat)) (hnd : (ops.map (fun o => o.1)).Nodup)
    (now : Nat) :
    (∀ p, p <+: ops → (runPuts (mkCache Nat cap) p now).hash.length ≤ cap) ∧
    (∀ (c : Cache Nat) (l : List (Entry Nat)) (k : String) (v t : Nat),
      Models c l →
      (((k, v, now + t) :: eraseKeyE l k).length > c.capacity →
        Models (put c k v t now)
          (((k, v, now + t) :: eraseKeyE l k).dropLast) ∧
        (put c k v t now).evictionCount = c.evictionCount + 1) ∧
      (¬ ((k, v, now + t) :: eraseKeyE l k).length > c.capacity →
        Models (put c k v t now) ((k, v, now + t) :: eraseKeyE l k) ∧
        (put c k v t now).evictionCount = c.evictionCount)) := by
  constructor
  · intro p hp
    have hndp : ((p.map (fun o => o.1)) ++
        ([] : List (Entry Nat)).map (fun e => e.1)).Nodup := by
      rw [List.map_nil, List.append_nil]
      exact List.Nodup.sublist (hp.sublist.map (fun o => o.1)) hnd
    obtain ⟨hMp, hcapp⟩ := runPuts_wfl now p (mkCache Nat cap) []
      ⟨[], mkCache_wfl Nat cap⟩ (by simp) hcap hndp
    obtain ⟨ids, wp⟩ := hMp
    rw [wp.hash_len]
    exact List.length_take_le _ _
  · intro c l k v t hM
    obtain ⟨ids, w⟩ := hM
    obtain ⟨hM1, _, _, _, hev⟩ := put_wfl w k v t now
    constructor
    · intro hover
      refine ⟨?_, by rw [hev, if_pos hover]⟩
      have h1 : putA c.capacity l k v (now + t) =
          ((k, v, now + t) :: eraseKeyE l k).dropLast := by
        simp only [putA]
        rw [if_pos hover]
      rw [← h1]
      exact hM1
    · intro hover
      refine ⟨?_, by rw [hev, if_neg hover, Nat.add_zero]⟩
      have h1 : putA c.capacity l k v (now + t) =
          (k, v, now + t) :: eraseKeyE l k := by
        simp only [putA]
        rw [if_neg hover]
      rw [← h1]
      exact hM1

/-- C3 holds at capacity 1 for the one-put sequence `("a", 1)`. -/
theorem C3_capacity_bound_witness :
    1 ≤ 1 ∧ (([("a", 1, 5)] : List (String × Nat × Nat)).map
      (fun o => o.1)).Nodup ∧
    (runPuts (mkCache Nat 1) [("a", 1, 5)] 0).hash.length ≤ 1 :=
  ⟨by decide, by decide,
    (C3_capacity_bound 1 (by decide) [("a", 1, 5)] (by decide) 0).1
      [("a", 1, 5)] (List.prefix_refl _)⟩

/-- C4: after every public operation the index and the recency list are
consistent: the bounded head → tail `next` walk and tail → head `prev` walk
visit the same distinct nodes in opposite orders, every key the index maps
to some node reachable in that walk whose stored key is the one looked up,
and every walked node carries an entry whose key the index maps back to it. -/
theorem C4_index_list_consistent (c : Cache Nat) (h : Reachable c) :
    ∃ ids l, WFL c ids l ∧ walkFwd c = ids ∧ walkBwd c = ids.reverse ∧
      ids.Nodup ∧
      (∀ k i, hashGet c.hash k = some i →
        i ∈ ids ∧ ∃ n, c.nodes[i]? = some n ∧ n.key = k) ∧
      (∀ i ∈ ids, ∃ e, entryAt c.nodes i = some e ∧
        hashGet c.hash e.1 = some i) := by
  obtain ⟨l, ids, w⟩ := reachable_models h
  refine ⟨ids, l, w, wfl_walkFwd w, wfl_walkBwd w, w.nodup, ?_,
    fun i hi => wfl_mem_ids w hi⟩
  intro k i hgi
  cases he : lookupE l k with
  | none =>
    rw [wfl_lookup_none w he] at hgi
    cases hgi
  | some e =>
    obtain ⟨l₁, l₂, ids₁, i', ids₂, hl, hids, hlen9, hg, hent, hek⟩ :=
      wfl_lookup_some w he
    rw [hg] at hgi
    injection hgi with hi'
    subst hi'
    have hmemi : i' ∈ ids := by
      rw [hids]
      exact List.mem_append.mpr (Or.inr (List.mem_cons_self _ _))
    refine ⟨hmemi, ?_⟩
    obtain ⟨n, hn, hne⟩ := Option.map_eq_some'.mp hent
    refine ⟨n, hn, ?_⟩
    rw [show n.key = e.1 from by rw [← hne]]
    exact hek

/-- C4 holds at the freshly constructed cache of capacity 2. -/
theorem C4_index_list_consistent_witness :
    Reachable (mkCache Nat 2) ∧
    (∃ ids l, WFL (mkCache Nat 2) ids l ∧ walkFwd (mkCache Nat 2) = ids ∧
      walkBwd (mkCache Nat 2) = ids.reverse ∧ ids.Nodup ∧
      (∀ k i, hashGet (mkCache Nat 2).hash k = some i →
        i ∈ ids ∧ ∃ n, (mkCache Nat 2).nodes[i]? = some n ∧ n.key = k) ∧
      (∀ i ∈ ids, ∃ e, entryAt (mkCache Nat 2).nodes i = some e ∧
        hashGet (mkCache Nat 2).hash e.1 = some i)) :=
  ⟨Reachable.init 2, C4_index_list_consistent (mkCache Nat 2)
    (Reachable.init 2)⟩

/-- C5: a `get`/`getOption` of a present but expired entry (stored expiry
strictly before `now`) increments only the miss counter and returns absent,
leaving the index, the arena and both list ends untouched — the expired node
is not removed; before expiry (TTL 1000, read at +500) the same `get`
returns the stored value. -/
theorem C5_expired_get (c : Cache Nat) (l : List (Entry Nat)) (k : String)
    (e : Entry Nat) (now : Nat) (hM : Models c l) (he : lookupE l k = some e)
    (hexp : e.2.2 < now) :
    get c k now = ({ c with missCount := c.missCount + 1 }, none) ∧
    getOption c k now = ({ c with missCount := c.missCount + 1 }, none) ∧
    (get c k now).1.hash = c.hash ∧ (get c k now).1.nodes = c.nodes ∧
    (get c k now).1.head = c.head ∧ (get c k now).1.tail = c.tail ∧
    (get (put (mkCache Nat 2) "k" 7 1000 0) "k" 500).2 = some 7 ∧
    (get (put (mkCache Nat 2) "k" 7 1000 0) "k" 1100).2 = none ∧
    (get (put (mkCache Nat 2) "k" 7 1000 0) "k" 1100).1.missCount =
      (put (mkCache Nat 2) "k" 7 1000 0).missCount + 1 ∧
    (get (put (mkCache Nat 2) "k" 7 1000 0) "k" 1100).1.hash =
      (put (mkCache Nat 2) "k" 7 1000 0).hash := by
  obtain ⟨ids, w⟩ := hM
  have h := get_expired_eq w now he hexp
  refine ⟨h, by rw [getOption_eq]; exact h, by rw [h], by rw [h], by rw [h],
    by rw [h], rfl, rfl, rfl, rfl⟩

/-- C5 holds on a one-entry cache read after its expiry time. -/
theorem C5_expired_get_witness :
    Models (put (mkCache Nat 3) "a" 5 100 0) [("a", 5, 100)] ∧
    lookupE ([("a", 5, 100)] : List (Entry Nat)) "a" = some ("a", 5, 100) ∧
    (100 : Nat) < 200 ∧
    (get (put (mkCache Nat 3) "a" 5 100 0) "a" 200).1.hash =
      (put (mkCache Nat 3) "a" 5 100 0).hash := by
  have hM : Models (put (mkCache Nat 3) "a" 5 100 0) [("a", 5, 100)] :=
    (put_wfl (mkCache_wfl Nat 3) "a" 5 100 0).1
  exact ⟨hM, rfl, by decide,
    (C5_expired_get (put (mkCache Nat 3) "a" 5 100 0) [("a", 5, 100)] "a"
      ("a", 5, 100) 200 hM rfl (by decide)).2.2.1⟩

/-- C6: re-`put`ting an existing key stores the new value (a subsequent
`get` returns it), keeps the number of stored entries exactly as after the
first `put` (no duplicate node), and does not increment the eviction counter
for the replacement. -/
theorem C6_update_in_place (c : Cache Nat) (l : List (Entry Nat))
    (hM : Models c l) (hle : l.length ≤ c.capacity) (hcap : 1 ≤ c.capacity)
    (k : String) (v1 v2 t1 t2 now1 now2 : Nat) :
    (get (put (put c k v1 t1 now1) k v2 t2 now2) k now2).2 = some v2 ∧
    (put (put c k v1 t1 now1) k v2 t2 now2).hash.length =
      (put c k v1 t1 now1).hash.length ∧
    (put (put c k v1 t1 now1) k v2 t2 now2).evictionCount =
      (put c k v1 t1 now1).evictionCount := by
  obtain ⟨ids, w⟩ := hM
  obtain ⟨hM1, hcap1, _, _, _⟩ := put_wfl w k v1 t1 now1
  obtain ⟨ids1, w1⟩ := hM1
  have her0 : (eraseKeyE l k).length ≤ c.capacity :=
    le_trans (List.length_filter_le _ _) hle
  have hform : putA c.capacity l k v1 (now1 + t1) =
      (k, v1, now1 + t1) :: (eraseKeyE l k).take (c.capacity - 1) :=
    putA_cons_take k v1 _ hcap her0
  rw [hform] at w1
  have hkeys_rest : ∀ x ∈ (eraseKeyE l k).take (c.capacity - 1),
      ¬ x.1 = k := fun x hx =>
    eraseKeyE_keys l k x ((List.take_sublist _ _).subset hx)
  have herase1 : eraseKeyE
      ((k, v1, now1 + t1) :: (eraseKeyE l k).take (c.capacity - 1)) k =
      (eraseKeyE l k).take (c.capacity - 1) := by
    unfold eraseKeyE
    rw [List.filter_cons]
    have hh : (!((k, v1, now1 + t1).1 == k)) = false := by simp
    rw [hh]
    simp only [Bool.false_eq_true, if_false]
    exact List.filter_eq_self.mpr (fun x hx => by
      rw [beq_eq_false_iff_ne.mpr (hkeys_rest x hx)]
      rfl)
  have hrest_le : ((eraseKeyE l k).take (c.capacity - 1)).length ≤
      c.capacity - 1 := List.length_take_le _ _
  obtain ⟨hM2, hcap2, _, _, hev2⟩ := put_wfl w1 k v2 t2 now2
  have hnov : ¬ ((k, v2, now2 + t2) :: eraseKeyE
      ((k, v1, now1 + t1) :: (eraseKeyE l k).take (c.capacity - 1)) k).length >
      (put c k v1 t1 now1).capacity := by
    rw [herase1, hcap1]
    simp only [List.length_cons]
    omega
  have hform2 : putA (put c k v1 t1 now1).capacity
      ((k, v1, now1 + t1) :: (eraseKeyE l k).take (c.capacity - 1)) k v2
      (now2 + t2) =
      (k, v2, now2 + t2) :: (eraseKeyE l k).take (c.capacity - 1) := by
    simp only [putA]
    rw [herase1, if_neg (by rw [herase1] at hnov; simpa using hnov)]
  rw [hform2] at hM2
  obtain ⟨ids2, w2⟩ := hM2
  refine ⟨?_, ?_, ?_⟩
  · have hlook : lookupE
        ((k, v2, now2 + t2) :: (eraseKeyE l k).take (c.capacity - 1)) k =
        some (k, v2, now2 + t2) := lookupE_cons_pos (by simp)
    exact (get_hit w2 now2 hlook
      (Nat.not_lt.mpr (Nat.le_add_right now2 t2))).2.1
  · rw [w2.hash_len, w1.hash_len]
    simp only [List.length_cons]
  · rw [hev2, if_neg hnov, Nat.add_zero]

/-- C6 holds on the empty cache of capacity 2 with `put k 1; put k 2`. -/
theorem C6_update_in_place_witness :
    Models (mkCache Nat 2) [] ∧
    ([] : List (Entry Nat)).length ≤ (mkCache Nat 2).capacity ∧
    1 ≤ (mkCache Nat 2).capacity ∧
    (get (put (put (mkCache Nat 2) "k" 1 10 0) "k" 2 10 0) "k" 0).2 =
      some 2 :=
  ⟨⟨[], mkCache_wfl Nat 2⟩, by decide, by decide,
    (C6_update_in_place (mkCache Nat 2) [] ⟨[], mkCache_wfl Nat 2⟩
      (by decide) (by decide) "k" 1 2 10 10 0 0).1⟩

/-- C7: `clear` empties the index, unsets both list ends, resets all three
counters to zero, leaves a well-formed empty cache, and afterwards every
`get` is absent; it has no error conditions. -/
theorem C7_clear_resets (c : Cache Nat) (k : String) (now : Nat) :
    (clear c).hash = [] ∧ (clear c).head = none ∧ (clear c).tail = none ∧
    (clear c).hitCount = 0 ∧ (clear c).missCount = 0 ∧
    (clear c).evictionCount = 0 ∧ Models (clear c) [] ∧
    (get (clear c) k now).2 = none := by
  obtain ⟨hw, h1, h2, h3, h4, h5, h6⟩ := clear_wfl c
  exact ⟨h1, h2, h3, h4, h5, h6, ⟨[], hw⟩, rfl⟩

/-- C8: `getOption` and `get` are the same computation — identical lookup,
expiry check, promotion and accounting, returning the same final state, with
`some`/`none` exactly where `get` yields a value / `undefined`. -/
theorem C8_getOption_refines_get (c : Cache Nat) (k : String) (now : Nat) :
    getOption c k now = get c k now ∧
    (getOption c k now).1 = (get c k now).1 ∧
    (getOption c k now).2 = (get c k now).2 :=
  ⟨rfl, rfl, rfl⟩

/-- C9 (counterexample): constructing with capacity 0 is not rejected — the
provisioning path happily returns an instance whose capacity is 0. -/
theorem C9_zero_capacity_accepted :
    (getInstance (none : Option (Cache Nat)) 0).capacity = 0 ∧
    getInstance (none : Option (Cache Nat)) 0 = mkCache Nat 0 :=
  ⟨rfl, rfl⟩

/-- C9 (amended): the constructor and `getInstance` perform no capacity
validation at all — the requested capacity (including 0) is stored
unchecked, and an existing instance is returned as-is. -/
theorem C9_capacity_unchecked (cap : Nat) (c : Cache Nat) :
    (mkCache Nat cap).capacity = cap ∧
    getInstance (none : Option (Cache Nat)) cap = mkCache Nat cap ∧
    getInstance (some c) cap = c :=
  ⟨rfl, rfl, rfl⟩

/-- C10: a successful hit re-inserts the accessed entry at the head with all
its fields — in particular its absolute expiry timestamp — unchanged, so the
binding for the key after the hit is exactly the entry stored by the
original `put`, and repeated hits never extend the TTL; `getOption` leaves
the identical state. -/
theorem C10_hit_preserves_expiry (c : Cache Nat) (l : List (Entry Nat))
    (k : String) (e : Entry Nat) (now : Nat) (hM : Models c l)
    (he : lookupE l k = some e) (hlive : ¬ e.2.2 < now) :
    Models (get c k now).1 (e :: eraseKeyE l k) ∧
    lookupE (e :: eraseKeyE l k) k = some e ∧
    (getOption c k now).1 = (get c k now).1 := by
  obtain ⟨ids, w⟩ := hM
  have he' : List.find? (fun x => x.1 == k) l = some e := he
  have hek9 : (e.1 == k) = true :=
    @List.find?_some (Entry Nat) (fun x => x.1 == k) e l he'
  exact ⟨(get_hit w now he hlive).1, lookupE_cons_pos hek9, rfl⟩

/-- C10 holds on a one-entry cache: after the hit the binding for `"a"`
still carries the original expiry 100. -/
theorem C10_hit_preserves_expiry_witness :
    Models (put (mkCache Nat 3) "a" 5 100 0) [("a", 5, 100)] ∧
    lookupE ([("a", 5, 100)] : List (Entry Nat)) "a" = some ("a", 5, 100) ∧
    ¬ (100 : Nat) < 50 ∧
    lookupE (("a", 5, 100) ::
      eraseKeyE ([("a", 5, 100)] : List (Entry Nat)) "a") "a" =
      some ("a", 5, 100) := by
  have hM : Models (put (mkCache Nat 3) "a" 5 100 0) [("a", 5, 100)] :=
    (put_wfl (mkCache_wfl Nat 3) "a" 5 100 0).1
  exact ⟨hM, rfl, by decide,
    (C10_hit_preserves_expiry (put (mkCache Nat 3) "a" 5 100 0)
      [("a", 5, 100)] "a" ("a", 5, 100) 50 hM rfl (by decide)).2.1⟩

end LRU
